import Mathlib

/-!
# Verification of the mealie-recipe-dredger crawl–verify–import pipeline

Shallow embedding of the repository's core (ASCII model of the Python string
primitives).  Sources embedded here:

* `src/mealie_recipe_dredger/url_utils.py`   — `canonicalize_url`
* `src/mealie_recipe_dredger/storage.py`     — `StorageManager` state machine
* `src/mealie_recipe_dredger/verifier.py`    — `RecipeVerifier.verify_recipe`
* `src/mealie_recipe_dredger/importer.py`    — `ImportManager`
* `src/mealie_recipe_dredger/crawler.py`     — `SitemapCrawler.fetch_sitemap_urls`
* `src/mealie_recipe_dredger/runtime.py`     — `RateLimiter.get_crawl_delay`
* `src/mealie_recipe_dredger/app.py`         — retry-queue processing

Strings are modelled as Lean `String`/`List Char`; the Python stdlib helpers
(`urllib.parse.urlsplit`, `parse_qsl`, `urlencode`, `urlunsplit`, `str.strip`,
`str.lower`) are embedded for the ASCII fragment they are used on: `lower`
maps only `A`–`Z` (Python additionally lowers non-ASCII letters), the
bracketed-host IPv6 validation and the NFKC netloc check of `urlsplit` are
omitted (they only decide which malformed inputs take the `raw.lower()`
fallback branch), and `unquote`'s UTF-8 error handling replaces each
undecodable byte with U+FFFD.  All witnesses and counterexamples below stay
inside the faithfully modelled fragment.
-/

namespace Dredger

/-- Python `str.strip` whitespace (ASCII part of Python's definition). -/
def isPyWs (c : Char) : Bool :=
  c = ' ' || c = '\t' || c = '\n' || c = '\r' || c = '\x0b' || c = '\x0c'

/-- ASCII lower-casing of one character (model of Python `str.lower`,
identical to core `Char.toLower`). -/
def lowerChar (c : Char) : Char :=
  if 65 ≤ c.toNat ∧ c.toNat ≤ 90 then Char.ofNat (c.toNat + 32) else c

def pyLower (l : List Char) : List Char := l.map lowerChar

/-- Python `str.strip()` on a character list. -/
def pyStrip (l : List Char) : List Char :=
  ((l.dropWhile isPyWs).reverse.dropWhile isPyWs).reverse

def isAsciiUpperAlpha (c : Char) : Bool := 65 ≤ c.toNat && c.toNat ≤ 90
def isAsciiLowerAlpha (c : Char) : Bool := 97 ≤ c.toNat && c.toNat ≤ 122
def isAsciiAlpha (c : Char) : Bool := isAsciiUpperAlpha c || isAsciiLowerAlpha c
def isAsciiDigit (c : Char) : Bool := 48 ≤ c.toNat && c.toNat ≤ 57

/-- `urllib.parse.scheme_chars`. -/
def isSchemeChar (c : Char) : Bool :=
  isAsciiAlpha c || isAsciiDigit c || c = '+' || c = '-' || c = '.'

/-- Characters terminating the netloc in `urllib.parse._splitnetloc`. -/
def isNetlocEnd (c : Char) : Bool := c = '/' || c = '?' || c = '#'

/-- Result type of `urllib.parse.urlsplit`. -/
structure SplitResult where
  scheme : List Char
  netloc : List Char
  path : List Char
  query : List Char
  fragment : List Char
deriving Repr, DecidableEq

/-- The scheme-recognition step of `urlsplit`: at the first `:`, when the
piece before it is alphanumeric-`+-.` starting with an ASCII letter, return
`(scheme.lower(), remainder)`, else `([], url)`. -/
def splitScheme (url1 : List Char) : List Char × List Char :=
  let pre := url1.takeWhile (fun c => c ≠ ':')
  match url1.dropWhile (fun c => c ≠ ':'), pre with
  | ':' :: rest, c :: cs =>
    if isAsciiAlpha c && (c :: cs).all isSchemeChar then (pyLower pre, rest)
    else (([] : List Char), url1)
  | _, _ => (([] : List Char), url1)

/-- `url, fragment = url.split('#', 1)` (no-op when there is no `#`). -/
def splitFragment (u : List Char) : List Char × List Char :=
  (u.takeWhile (fun c => c ≠ '#'),
   match u.dropWhile (fun c => c ≠ '#') with
   | '#' :: r => r
   | _ => [])

/-- `url, query = url.split('?', 1)` (no-op when there is no `?`). -/
def splitQuery (u : List Char) : List Char × List Char :=
  (u.takeWhile (fun c => c ≠ '?'),
   match u.dropWhile (fun c => c ≠ '?') with
   | '?' :: r => r
   | _ => [])

/-- Model of `urllib.parse.urlsplit` (Python ≥3.10 semantics: tab/CR/LF are
removed anywhere, the scheme is recognised by `splitScheme`, the netloc runs
from `//` to the first `/?#`, then the fragment and query are split off).
`none` models a raised `ValueError` (mismatched `[`/`]` in the netloc). -/
def pyUrlsplit (url0 : List Char) : Option SplitResult :=
  let url1 := url0.filter (fun c => !(c = '\t' || c = '\r' || c = '\n'))
  let (scheme, url2) := splitScheme url1
  if url2.take 2 = ['/', '/'] then
    let rest := url2.drop 2
    let netloc := rest.takeWhile (fun c => !isNetlocEnd c)
    let url3 := rest.dropWhile (fun c => !isNetlocEnd c)
    if (netloc.contains '[' != netloc.contains ']') then none
    else
      let (url4, fragment) := splitFragment url3
      let (path, query) := splitQuery url4
      some ⟨scheme, netloc, path, query, fragment⟩
  else
    let (url4, fragment) := splitFragment url2
    let (path, query) := splitQuery url4
    some ⟨scheme, [], path, query, fragment⟩

/-- Componentwise ASCII lowering of a split result (the scheme is already
lowered by `splitScheme`). -/
def lowerParts (p : SplitResult) : SplitResult :=
  ⟨p.scheme, pyLower p.netloc, pyLower p.path, pyLower p.query, pyLower p.fragment⟩

/-- UTF-8 encoding of one character, written arithmetically. -/
def utf8Bytes (c : Char) : List Nat :=
  let n := c.toNat
  if n < 0x80 then [n]
  else if n < 0x800 then [0xC0 + n / 64, 0x80 + n % 64]
  else if n < 0x10000 then [0xE0 + n / 4096, 0x80 + n / 64 % 64, 0x80 + n % 64]
  else [0xF0 + n / 262144, 0x80 + n / 4096 % 64, 0x80 + n / 64 % 64, 0x80 + n % 64]

def isContByte (b : Nat) : Bool := 0x80 ≤ b && b ≤ 0xBF

def replacementChar : Char := Char.ofNat 0xFFFD

/-- Strict greedy UTF-8 decoding with U+FFFD replacement (model of Python's
`bytes.decode("utf-8", errors="replace")`; on a malformed byte the model
emits one replacement character and resynchronises at the next byte). -/
def utf8DecodeReplace : List Nat → List Char
  | [] => []
  | b0 :: bs =>
    if b0 < 0x80 then Char.ofNat b0 :: utf8DecodeReplace bs
    else
      match bs with
      | b1 :: bs1 =>
        if 0xC2 ≤ b0 && b0 ≤ 0xDF then
          if isContByte b1 then
            Char.ofNat ((b0 - 0xC0) * 64 + (b1 - 0x80)) :: utf8DecodeReplace bs1
          else replacementChar :: utf8DecodeReplace (b1 :: bs1)
        else
          match bs1 with
          | b2 :: bs2 =>
            if 0xE0 ≤ b0 && b0 ≤ 0xEF then
              if ((b0 = 0xE0 && (0xA0 ≤ b1 && b1 ≤ 0xBF)) ||
                  (0xE1 ≤ b0 && b0 ≤ 0xEC && isContByte b1) ||
                  (b0 = 0xED && (0x80 ≤ b1 && b1 ≤ 0x9F)) ||
                  (0xEE ≤ b0 && b0 ≤ 0xEF && isContByte b1)) && isContByte b2 then
                Char.ofNat ((b0 - 0xE0) * 4096 + (b1 - 0x80) * 64 + (b2 - 0x80)) ::
                  utf8DecodeReplace bs2
              else replacementChar :: utf8DecodeReplace (b1 :: b2 :: bs2)
            else
              match bs2 with
              | b3 :: bs3 =>
                if ((b0 = 0xF0 && (0x90 ≤ b1 && b1 ≤ 0xBF)) ||
                    (0xF1 ≤ b0 && b0 ≤ 0xF3 && isContByte b1) ||
                    (b0 = 0xF4 && (0x80 ≤ b1 && b1 ≤ 0x8F))) &&
                    isContByte b2 && isContByte b3 then
                  Char.ofNat ((b0 - 0xF0) * 262144 + (b1 - 0x80) * 4096 +
                      (b2 - 0x80) * 64 + (b3 - 0x80)) :: utf8DecodeReplace bs3
                else replacementChar :: utf8DecodeReplace (b1 :: b2 :: b3 :: bs3)
              | [] => replacementChar :: utf8DecodeReplace [b1, b2]
          | [] => replacementChar :: utf8DecodeReplace [b1]
      | [] => [replacementChar]

def hexDigitVal (c : Char) : Option Nat :=
  if 48 ≤ c.toNat ∧ c.toNat ≤ 57 then some (c.toNat - 48)
  else if 97 ≤ c.toNat ∧ c.toNat ≤ 102 then some (c.toNat - 97 + 10)
  else if 65 ≤ c.toNat ∧ c.toNat ≤ 70 then some (c.toNat - 65 + 10)
  else none

def toHexUpper (n : Nat) : Char :=
  if n < 10 then Char.ofNat ('0'.toNat + n) else Char.ofNat ('A'.toNat + n - 10)

/-- Worker for percent-decoding: `acc` holds the bytes of the current maximal
run of `%hh` escapes; a literal character (or end of input) flushes the run
through the UTF-8 decoder.  This matches Python `unquote`, which converts each
run of escapes and adjacent ASCII literals to bytes and UTF-8-decodes them
(ASCII literal bytes decode to themselves, so flushing at literals agrees). -/
def pctDecodeAux : List Nat → List Char → List Char
  | acc, '%' :: c1 :: c2 :: rest =>
    match hexDigitVal c1, hexDigitVal c2 with
    | some h, some lo => pctDecodeAux (acc ++ [16 * h + lo]) rest
    | _, _ => utf8DecodeReplace acc ++ '%' :: pctDecodeAux [] (c1 :: c2 :: rest)
  | acc, c :: rest => utf8DecodeReplace acc ++ c :: pctDecodeAux [] rest
  | acc, [] => utf8DecodeReplace acc

/-- Model of Python `urllib.parse.unquote` (percent-decoding). -/
def pctDecode (l : List Char) : List Char := pctDecodeAux [] l

def plusToSpace (l : List Char) : List Char :=
  l.map (fun c => if c = '+' then ' ' else c)

/-- `name.replace('+', ' ')` followed by `unquote(name)` as in `parse_qsl`. -/
def unquotePlus (l : List Char) : List Char := pctDecode (plusToSpace l)

/-- The always-safe characters of `urllib.parse.quote` (with `safe=''`,
as used by `urlencode`). -/
def isUrlSafe (c : Char) : Bool :=
  isAsciiAlpha c || isAsciiDigit c || c = '_' || c = '.' || c = '-' || c = '~'

/-- Model of `urllib.parse.quote_plus` with `safe=''` on one character. -/
def quotePlusChar (c : Char) : List Char :=
  if isUrlSafe c then [c]
  else if c = ' ' then ['+']
  else (utf8Bytes c).flatMap (fun b => ['%', toHexUpper (b / 16), toHexUpper (b % 16)])

def quotePlus (l : List Char) : List Char := l.flatMap quotePlusChar

/-- Split on a separator character, keeping empty pieces (Python `str.split`). -/
def splitOnChar (sep : Char) : List Char → List (List Char)
  | [] => [[]]
  | c :: rest =>
    if c = sep then [] :: splitOnChar sep rest
    else
      match splitOnChar sep rest with
      | h :: t => (c :: h) :: t
      | [] => [[c]]

/-- Model of `urllib.parse.parse_qsl(qs, keep_blank_values=True)`:
split the query on `&`, skip empty pieces, split each piece at the first `=`
(a piece without `=` becomes `(name, '')`), and `unquote_plus` each side. -/
def parseQsl (qs : List Char) : List (List Char × List Char) :=
  if qs = [] then []
  else
    (splitOnChar '&' qs).filterMap fun pair =>
      if pair = [] then none
      else
        let n := pair.takeWhile (fun c => c ≠ '=')
        match pair.dropWhile (fun c => c ≠ '=') with
        | '=' :: v => some (unquotePlus n, unquotePlus v)
        | _ => some (unquotePlus pair, [])

/-- `TRACKING_QUERY_KEYS` from `url_utils.py`. -/
def TRACKING_QUERY_KEYS : List (List Char) :=
  ["fbclid".data, "gclid".data, "igshid".data, "mc_cid".data, "mc_eid".data,
   "ref".data, "ref_src".data, "ref_url".data, "s".data, "spm".data]

/-- The filter condition of `canonicalize_url`:
`key.lower().startswith("utm_") or key.lower() in TRACKING_QUERY_KEYS`. -/
def isTrackingKey (k : List Char) : Bool :=
  let lowered := pyLower k
  "utm_".data.isPrefixOf lowered || TRACKING_QUERY_KEYS.contains lowered

/-- `a ≤ b` on character lists by code points (Python `str` comparison). -/
def listCharLe : List Char → List Char → Bool
  | [], _ => true
  | _ :: _, [] => false
  | x :: xs, y :: ys =>
    if x.toNat < y.toNat then true
    else if y.toNat < x.toNat then false
    else listCharLe xs ys

/-- `≤` on query pairs: Python tuple comparison `(k, v) ≤ (k', v')`. -/
def pairLe (a b : List Char × List Char) : Bool :=
  if a.1 = b.1 then listCharLe a.2 b.2 else listCharLe a.1 b.1

/-- `pairLe` as a decidable relation, for `List.insertionSort`. -/
def pairLeRel (a b : List Char × List Char) : Prop := pairLe a b = true

instance : DecidableRel pairLeRel := fun a b => by
  unfold pairLeRel; infer_instance

/-- Model of `urlencode(pairs, doseq=True)` for string pairs:
`quote_plus(k) + '=' + quote_plus(v)` joined by `&`.  `filtered_query.sort()`
is modelled by the stable `List.insertionSort` with `pairLe`: Python's stable
sort and any stable sort by the same total order produce the same list. -/
def urlencodePairs (ps : List (List Char × List Char)) : List Char :=
  List.intercalate ['&'] (ps.map (fun kv => quotePlus kv.1 ++ '=' :: quotePlus kv.2))

/-- Model of `urllib.parse.urlunsplit` with an empty fragment. -/
def pyUrlunsplit (scheme netloc path query : List Char) : List Char :=
  let url :=
    if netloc ≠ [] ∨ (path ≠ [] ∧ path.take 2 = ['/', '/']) then
      let url' := if path ≠ [] ∧ path.head? ≠ some '/' then '/' :: path else path
      '/' :: '/' :: (netloc ++ url')
    else path
  let url := if scheme ≠ [] then scheme ++ ':' :: url else url
  if query ≠ [] then url ++ '?' :: query else url

/-- `re.sub(r"/+", "/", path)`. -/
def collapseSlashes : List Char → List Char
  | [] => []
  | [c] => [c]
  | a :: b :: rest =>
    if a = '/' ∧ b = '/' then collapseSlashes (b :: rest)
    else a :: collapseSlashes (b :: rest)

/-- `netloc = netloc[4:] if netloc.startswith("www.") else netloc`. -/
def wwwStrip (n : List Char) : List Char :=
  if "www.".data.isPrefixOf n then n.drop 4 else n

/-- The path normalisation of `canonicalize_url`: `path or "/"`, collapse
slash runs, strip one trailing slash unless the path is `"/"`. -/
def normPath (p : List Char) : List Char :=
  let p0 := if p = [] then ['/'] else p
  let p1 := collapseSlashes p0
  if p1 ≠ ['/'] ∧ p1.getLast? = some '/' then p1.dropLast else p1

def filterTracking (ps : List (List Char × List Char)) :
    List (List Char × List Char) :=
  ps.filter (fun kv => !isTrackingKey kv.1)

/-- The query normalisation of `canonicalize_url`: parse, drop tracking keys,
sort, re-encode. -/
def encodeQuery (q : List Char) : List Char :=
  urlencodePairs (List.insertionSort pairLeRel (filterTracking (parseQsl q)))

/-- `canonicalize_url` from `url_utils.py`, on character lists. -/
def canonList (l : List Char) : List Char :=
  let raw := pyStrip l
  if raw = [] then []
  else
    match pyUrlsplit raw with
    | none => pyLower raw
    | some parts =>
      if parts.scheme = [] ∨ parts.netloc = [] then pyLower raw
      else
        pyUrlunsplit (pyLower parts.scheme) (wwwStrip (pyLower parts.netloc))
          (normPath parts.path) (encodeQuery parts.query)

/-- `canonicalize_url` from `url_utils.py`. -/
def canonicalize_url (url : String) : String := ⟨canonList url.data⟩

/-- No whitespace characters anywhere in the list. -/
def NoWs (l : List Char) : Prop := ∀ c ∈ l, isPyWs c = false

instance (l : List Char) : Decidable (NoWs l) := by unfold NoWs; infer_instance

/-- Host-stability condition for idempotence of `canonicalize_url`: when the
input parses with a scheme and netloc, stripping one `www.` from the
lowercased netloc must not leave it empty or still `www.`-prefixed. -/
def hostStable (u : String) : Bool :=
  match pyUrlsplit (pyStrip u.data) with
  | none => true
  | some parts =>
    parts.scheme = [] || parts.netloc = [] ||
    (!(wwwStrip (pyLower parts.netloc) = []) &&
     !("www.".data.isPrefixOf (wwwStrip (pyLower parts.netloc))))

/-- Python `url.strip().lower()` on a `String`. -/
def stripLower (s : String) : String := ⟨pyLower (pyStrip s.data)⟩

/-! ## Storage (`storage.py`, `StorageManager`)

`imported`/`rejects` are Python sets of strings, modelled as lists with
membership-guarded insertion; `retry_queue` is an insertion-ordered dict,
modelled as an association list.  The `stats` and `sitemap_cache` maps and the
flush counters are not touched by any claim and are omitted from the state. -/

/-- One `retry_queue` value: `{"reason", "attempts", "last_attempt"}`. -/
structure RetryEntry where
  reason : String
  attempts : Nat
  lastAttempt : String
deriving Repr, DecidableEq

/-- Python `set.add`. -/
def setAdd (k : String) (s : List String) : List String :=
  if k ∈ s then s else k :: s

def qGet (k : String) (q : List (String × RetryEntry)) : Option RetryEntry :=
  (q.find? (fun p => p.1 = k)).map (fun p => p.2)

/-- Python dict assignment `q[k] = v` (update in place, else append). -/
def qPut (k : String) (v : RetryEntry) (q : List (String × RetryEntry)) :
    List (String × RetryEntry) :=
  if (q.find? (fun p => p.1 = k)).isSome then
    q.map (fun p => if p.1 = k then (k, v) else p)
  else q ++ [(k, v)]

/-- Python `q.pop(k, None)`. -/
def qPop (k : String) (q : List (String × RetryEntry)) : List (String × RetryEntry) :=
  q.filter (fun p => ¬p.1 = k)

def qMem (k : String) (q : List (String × RetryEntry)) : Prop :=
  k ∈ q.map (fun p => p.1)

instance (k : String) (q : List (String × RetryEntry)) : Decidable (qMem k q) := by
  unfold qMem; infer_instance

/-- The claim-relevant state of `StorageManager`. -/
structure StorageState where
  rejects : List String
  imported : List String
  retry_queue : List (String × RetryEntry)
deriving Repr, DecidableEq

def emptyStore : StorageState := ⟨[], [], []⟩

/-- `StorageManager._normalize_url_key`. -/
def normalizeUrlKey (url : String) : String :=
  let normalized := canonicalize_url url
  if normalized ≠ "" then normalized else stripLower url

/-- `StorageManager.add_imported`. -/
def addImported (st : StorageState) (url : String) : StorageState :=
  let urlKey := normalizeUrlKey url
  { st with imported := setAdd urlKey st.imported,
            retry_queue := qPop urlKey st.retry_queue }

/-- `StorageManager.add_reject`. -/
def addReject (st : StorageState) (url : String) : StorageState :=
  let urlKey := normalizeUrlKey url
  { st with rejects := setAdd urlKey st.rejects,
            retry_queue := qPop urlKey st.retry_queue }

/-- `StorageManager.add_retry`; `now` stands for `datetime.now().isoformat()`. -/
def addRetry (st : StorageState) (url reason : String) (increment : Bool)
    (now : String) : StorageState :=
  let urlKey := normalizeUrlKey url
  let attempts0 := match qGet urlKey st.retry_queue with
    | some e => e.attempts
    | none => 0
  let attempts := if increment then attempts0 + 1 else attempts0
  { st with retry_queue := qPut urlKey ⟨reason, attempts, now⟩ st.retry_queue }

/-- `StorageManager.remove_retry`. -/
def removeRetry (st : StorageState) (url : String) : StorageState :=
  let urlKey := normalizeUrlKey url
  { st with retry_queue := qPop urlKey st.retry_queue }

/-- One `StorageManager` mutation on a fixed URL, for the mutual-exclusivity
claim about call sequences on a single key. -/
inductive StoreCall where
  | imp : StoreCall
  | rej : StoreCall
  | ret (reason : String) (increment : Bool) (now : String) : StoreCall
deriving Repr, DecidableEq

def applyCall (u : String) (st : StorageState) : StoreCall → StorageState
  | .imp => addImported st u
  | .rej => addReject st u
  | .ret reason increment now => addRetry st u reason increment now

def runCalls (u : String) (st : StorageState) (calls : List StoreCall) : StorageState :=
  calls.foldl (applyCall u) st

def StoreCall.isRet : StoreCall → Prop
  | .ret _ _ _ => True
  | _ => False

instance : DecidablePred StoreCall.isRet := fun c => by
  cases c <;> (unfold StoreCall.isRet; infer_instance)

/-! ## Verifier (`verifier.py`, `RecipeVerifier`)

The HTTP fetch is the external collaborator: its outcome (a status code plus
parsed-page signals, or a raised exception) is an input to the model.  The
BeautifulSoup/JSON-LD analysis of a fetched page (`_recipe_schema_signal`,
the CSS-class marker, language detection, `is_paranoid_skip`) operates on the
parsed page, which the model abstracts as the record of those signal values;
the claims settled here concern only the status/exception classification that
surrounds them. -/

/-- The exception classes caught by `verify_recipe` / `import_to_mealie`,
in `except`-clause order: `requests.exceptions.Timeout`,
`requests.exceptions.ConnectionError`, any other
`requests.exceptions.RequestException`, and any other `Exception`. -/
inductive FetchExc where
  | timeout : FetchExc
  | connError : FetchExc
  | requestExc : FetchExc
  | otherExc : FetchExc
deriving Repr, DecidableEq

/-- Signals computed from a fetched page by the steps of `verify_recipe`:
`_recipe_schema_signal` (pair), the recipe-card CSS marker,
`detect_language_from_html`, and `is_paranoid_skip` on the page. -/
structure PageSignals where
  hasRecipeType : Bool
  strongRecipePayload : Bool
  hasRecipeCard : Bool
  detectedLanguage : Option String
  paranoidSkip : Option String
deriving Repr, DecidableEq

/-- Outcome of `self.session.get(url, timeout=10)` followed by parsing. -/
inductive FetchOutcome where
  | ok (status : Nat) (page : PageSignals) : FetchOutcome
  | exc (e : FetchExc) : FetchOutcome
deriving Repr, DecidableEq

/-- `TRANSIENT_HTTP_CODES` from `config.py`. -/
def TRANSIENT_HTTP_CODES : List Nat :=
  [408, 425, 429, 500, 502, 503, 504, 520, 521, 522, 523, 524]

/-- `NON_RECIPE_EXTENSIONS` from `config.py`. -/
def NON_RECIPE_EXTENSIONS : List (List Char) :=
  [".jpg".data, ".jpeg".data, ".png".data, ".gif".data, ".webp".data,
   ".svg".data, ".bmp".data, ".ico".data, ".pdf".data, ".zip".data,
   ".mp4".data, ".webm".data, ".mov".data, ".avi".data, ".mkv".data]

/-- `NON_RECIPE_PATH_HINTS` from `config.py`. -/
def NON_RECIPE_PATH_HINTS : List (List Char) :=
  ["/wp-content/uploads/".data, "/wp-json/".data, "/category/".data,
   "/tag/".data, "/author/".data, "/feed/".data]

/-- `a.endswith(b)`. -/
def endsWithL (l suf : List Char) : Bool := decide (suf <:+ l)

/-- `b in a` (substring containment). -/
def containsSub (l sub : List Char) : Bool := decide (sub <:+: l)

/-- The path component used by `pre_filter_candidate`:
`urlparse(url).path.lower()`.  `urlparse` yields the same path as `urlsplit`
except that a `;`-parameter suffix of the last segment is split off. -/
def urlparsePath (url : String) : List Char :=
  match pyUrlsplit (url.data) with
  | none => []
  | some parts =>
    let p := parts.path
    let lastSeg := (p.reverse.takeWhile (fun c => c ≠ '/')).reverse
    if lastSeg.contains ';' then
      let keep := p.length - (lastSeg.reverse.takeWhile (fun c => c ≠ ';')).length - 1
      p.take keep
    else p

/-- `RecipeVerifier.pre_filter_candidate` (pure string check; a parse error
is modelled by the `none` branch of `pyUrlsplit`, caught by the
`except: pass`). -/
def preFilterCandidate (url : String) : Option String :=
  let path := pyLower (urlparsePath url)
  if NON_RECIPE_EXTENSIONS.any (fun ext => endsWithL path ext) then
    some "Non-HTML media URL"
  else if NON_RECIPE_PATH_HINTS.any (fun marker => containsSub path marker) then
    some "Non-recipe path"
  else if path = "/blog".data ∨ path = "/blog/".data then
    some "Blog index path"
  else none

/-- Result quadruple of `verify_recipe`:
`(accepted, has parsed page, reason, transient)`. -/
structure VerifyResult where
  accepted : Bool
  hasSoup : Bool
  reason : Option String
  transient : Bool
deriving Repr, DecidableEq

/-- Language-filter configuration (`LANGUAGE_FILTER_ENABLED`,
`TARGET_LANGUAGE`, `LANGUAGE_DETECTION_STRICT` from `config.py`). -/
structure LangConfig where
  filterEnabled : Bool
  targetLanguage : String
  strict : Bool
deriving Repr, DecidableEq

/-- `RecipeVerifier.verify_recipe`, with the fetch outcome as input. -/
def verifyRecipe (cfg : LangConfig) (url : String) (fetch : FetchOutcome) :
    VerifyResult :=
  match preFilterCandidate url with
  | some reason => ⟨false, false, some reason, false⟩
  | none =>
    match fetch with
    | .exc .timeout => ⟨false, false, some "Timeout", true⟩
    | .exc .connError => ⟨false, false, some "Connection error", true⟩
    | .exc .requestExc => ⟨false, false, some "Request error", true⟩
    | .exc .otherExc => ⟨false, false, some "Exception", false⟩
    | .ok status page =>
      if status ≠ 200 then
        ⟨false, false, some s!"HTTP {status}", status ∈ TRANSIENT_HTTP_CODES⟩
      else if ¬page.strongRecipePayload ∧ ¬page.hasRecipeCard then
        if page.hasRecipeType then ⟨false, true, some "Weak recipe schema", false⟩
        else ⟨false, true, some "No recipe detected", false⟩
      else
        let langReject : Option VerifyResult :=
          if cfg.filterEnabled ∧ cfg.targetLanguage ≠ "" then
            match page.detectedLanguage with
            | some code =>
              if code ≠ cfg.targetLanguage then
                some ⟨false, true, some s!"Language mismatch: {code}", false⟩
              else none
            | none =>
              if cfg.strict then some ⟨false, true, some "Language unknown", false⟩
              else none
          else none
        match langReject with
        | some r => r
        | none =>
          match page.paranoidSkip with
          | some reason => ⟨false, true, some reason, false⟩
          | none => ⟨true, true, none, false⟩

/-! ## Importer (`importer.py`, `ImportManager`)

The Mealie backend is the external collaborator; its paginated recipe listing
and its response to each `POST {path}` are inputs.  Every HTTP request the
model performs is recorded in an output list, so "no network call" is the
statement that this list is empty. -/

/-- Backend response to one import `POST` (or a raised exception). -/
inductive PostResp where
  | ok (status : Nat) (body : String) : PostResp
  | exc (e : FetchExc) : PostResp
deriving Repr, DecidableEq

/-- The backend oracle: the source URLs extracted from the paginated recipe
listing (`none` models a non-200 page, malformed payload or exception), and
the response to a `POST` on a given endpoint path. -/
structure Backend where
  listing : Option (List String)
  post : String → PostResp

/-- Configuration flags read by `ImportManager`
(`MEALIE_ENABLED`, `DRY_RUN`/`--dry-run`, `IMPORT_PRECHECK_DUPLICATES`). -/
structure ImportConfig where
  mealieEnabled : Bool
  dryRun : Bool
  precheckDuplicates : Bool
deriving Repr, DecidableEq

/-- The mutable attributes of `ImportManager` used by `import_to_mealie`. -/
structure ImportState where
  mealieImportPath : Option String
  knownSourceUrls : List String
  sourceIndexLoaded : Bool
  sourceIndexFailed : Bool
deriving Repr, DecidableEq

def initImportState : ImportState := ⟨none, [], false, false⟩

/-- `ImportManager._mealie_endpoint_candidates`. -/
def mealieEndpointCandidates : List String :=
  ["/api/recipes/create/url", "/api/recipes/create-url"]

/-- `ImportManager._load_existing_sources` (one model step for the whole
paginated loop; failure of any page collapses to `listing = none`). -/
def loadExistingSources (backend : Backend) (st : ImportState) :
    ImportState × List String :=
  if st.sourceIndexLoaded ∨ st.sourceIndexFailed then (st, [])
  else
    match backend.listing with
    | some items =>
      let sources := (items.map canonicalize_url).filter (fun s => s ≠ "")
      ({ st with knownSourceUrls := sources, sourceIndexLoaded := true },
       ["GET /api/recipes"])
    | none => ({ st with sourceIndexFailed := true }, ["GET /api/recipes"])

/-- `ImportManager._precheck_duplicate_source`. -/
def precheckDuplicateSource (cfg : ImportConfig) (backend : Backend)
    (st : ImportState) (url : String) : Bool × ImportState × List String :=
  if ¬cfg.precheckDuplicates then (false, st, [])
  else
    let (st1, reqs) := loadExistingSources backend st
    if st1.sourceIndexFailed then (false, st1, reqs)
    else
      let canonicalSource := canonicalize_url url
      if canonicalSource ≠ "" ∧ canonicalSource ∈ st1.knownSourceUrls then
        (true, st1, reqs)
      else (false, st1, reqs)

/-- Error-body truncation of `import_to_mealie`:
`body.strip().replace("\n", " ")`, cut to 177 chars plus `"..."` past 180. -/
def truncBody (body : String) : String :=
  let b := (pyStrip body.data).map (fun c => if c = '\n' then ' ' else c)
  if 180 < b.length then ⟨b.take 177 ++ "...".data⟩ else ⟨b⟩

/-- Result triple `(success, error, transient)` of the importer. -/
abbrev ImportResult := Bool × Option String × Bool

/-- The `for path in candidate_paths` loop of `import_to_mealie`. -/
def importPostLoop (backend : Backend) (st : ImportState) (url : String) :
    List String → Option String → ImportResult × ImportState × List String
  | [], endpointError =>
    ((false, some (endpointError.getD "No compatible Mealie import endpoint found"),
      false), st, [])
  | path :: rest, _ =>
    match backend.post path with
    | .exc .timeout => ((false, some "Timeout", true), st, [s!"POST {path}"])
    | .exc .connError => ((false, some "Connection error", true), st, [s!"POST {path}"])
    | .exc .requestExc => ((false, some "Request error", true), st, [s!"POST {path}"])
    | .exc .otherExc => ((false, some "Exception", false), st, [s!"POST {path}"])
    | .ok status body =>
      if status ∈ [200, 201, 202] ∨ status = 409 then
        let st1 := { st with mealieImportPath := some path }
        let canonicalSource := canonicalize_url url
        let st2 :=
          if canonicalSource ≠ "" then
            { st1 with knownSourceUrls := setAdd canonicalSource st1.knownSourceUrls }
          else st1
        ((true, none, false), st2, [s!"POST {path}"])
      else if status ∈ [404, 405] then
        let (res, st', reqs) := importPostLoop backend st url rest (some s!"HTTP {status}")
        (res, st', s!"POST {path}" :: reqs)
      else if status ∈ TRANSIENT_HTTP_CODES then
        ((false, some s!"HTTP {status}", true), st, [s!"POST {path}"])
      else
        let b := truncBody body
        ((false, some (s!"HTTP {status}" ++ (if b ≠ "" then s!" - {b}" else "")), false),
         st, [s!"POST {path}"])

/-- `ImportManager.import_to_mealie`.  The exception classification of the
surrounding `try` is folded into `importPostLoop`/`Backend`; the
`rate_limiter.wait_if_needed(MEALIE_URL)` call (which may itself fetch
robots.txt) happens only on the non-dry-run path after the precheck. -/
def importToMealie (cfg : ImportConfig) (backend : Backend) (st : ImportState)
    (url : String) : ImportResult × ImportState × List String :=
  if cfg.dryRun then ((true, none, false), st, [])
  else
    let (dup, st1, reqs1) := precheckDuplicateSource cfg backend st url
    if dup then ((true, none, false), st1, reqs1)
    else
      let candidatePaths :=
        match st1.mealieImportPath with
        | some p =>
          if p ∈ mealieEndpointCandidates then
            p :: mealieEndpointCandidates.filter (fun q => q ≠ p)
          else mealieEndpointCandidates
        | none => mealieEndpointCandidates
      let (res, st2, reqs2) := importPostLoop backend st1 url candidatePaths none
      (res, st2, reqs1 ++ reqs2)

/-- `ImportManager.import_recipe`. -/
def importRecipe (cfg : ImportConfig) (backend : Backend) (st : ImportState)
    (url : String) : ImportResult × ImportState × List String :=
  if ¬cfg.mealieEnabled then
    ((false, some "Mealie import is disabled", false), st, [])
  else importToMealie cfg backend st url

/-! ## Sitemap crawler (`crawler.py`, `SitemapCrawler.fetch_sitemap_urls`)

The fetched-and-XML-parsed document is abstracted by which tags BeautifulSoup
finds: `index` when `soup.find("sitemap")` is truthy (carrying the raw texts of
the `<loc>` children of all `<sitemap>` tags, absent `<loc>` tags omitted),
`urlset` when instead `soup.find("url")` is truthy (likewise for `<url>`
tags), `other` for any other shape.  The fetch oracle returns `none` for a
raised fetch/parse exception. -/

inductive SitemapDoc where
  | index (locTexts : List String) : SitemapDoc
  | urlset (locTexts : List String) : SitemapDoc
  | other : SitemapDoc
deriving Repr, DecidableEq

/-- `fetch_sitemap_urls(url, depth)`: `go` is the body, with fuel `3 - depth`
so that the `depth > 2` recursion guard is the fuel running out and the
recursive call at `depth + 1` burns one unit. -/
def fetchSitemapUrlsGo (fetch : String → Option (Nat × SitemapDoc)) :
    Nat → String → List String
  | 0, _ => []
  | r + 1, url =>
    match fetch url with
    | none => []
    | some (status, doc) =>
      if status ≠ 200 then []
      else
        match doc with
        | .index locTexts =>
          let subMaps := locTexts.filterMap
            (fun t => if t = "" then none else some (⟨pyStrip t.data⟩ : String))
          let targets0 := subMaps.filter
            (fun s => containsSub s.data "post".data || containsSub s.data "recipe".data)
          let targets := if targets0 = [] then subMaps else targets0
          (targets.take 3).flatMap (fun s => fetchSitemapUrlsGo fetch r s)
        | .urlset locTexts =>
          locTexts.filterMap fun t =>
            if t = "" then none
            else
              let loc : String := ⟨pyStrip t.data⟩
              if "http://".data.isPrefixOf loc.data ∨ "https://".data.isPrefixOf loc.data
              then some loc else none
        | .other => []

/-- `SitemapCrawler.fetch_sitemap_urls`. -/
def fetchSitemapUrls (fetch : String → Option (Nat × SitemapDoc)) (url : String)
    (depth : Nat) : List String :=
  fetchSitemapUrlsGo fetch (3 - depth) url

/-! ## Rate limiter (`runtime.py`, `RateLimiter.get_crawl_delay`)

The robots.txt fetch is the external collaborator: `robots domain` is the
status and text of `GET https://{domain}/robots.txt` or `none` for a raised
exception.  Delays are modelled as rationals; `pyFloat` models Python
`float(...)` on finite decimal literals (the values actually found in
`Crawl-delay:` directives; `inf`/`nan`/hex forms are outside the model). -/

def digitsToNat (l : List Char) : Nat :=
  l.foldl (fun a c => 10 * a + (c.toNat - 48)) 0

/-- Model of Python `float(s)` for optionally-signed finite decimal literals
with an optional exponent; `none` models a raised `ValueError`. -/
def pyFloat (l0 : List Char) : Option ℚ :=
  let (sign, l1) : ℚ × List Char :=
    match l0 with
    | '-' :: r => (-1, r)
    | '+' :: r => (1, r)
    | _ => (1, l0)
  let ip := l1.takeWhile isAsciiDigit
  let r1 := l1.dropWhile isAsciiDigit
  let withExp (mant : ℚ) (r : List Char) : Option ℚ :=
    match r with
    | [] => some (sign * mant)
    | e :: r2 =>
      if e = 'e' ∨ e = 'E' then
        let (esign, r3) : Int × List Char :=
          match r2 with
          | '-' :: r4 => (-1, r4)
          | '+' :: r4 => (1, r4)
          | _ => (1, r2)
        let ed := r3.takeWhile isAsciiDigit
        if ed = [] ∨ r3.dropWhile isAsciiDigit ≠ [] then none
        else some (sign * mant * (10 : ℚ) ^ (esign * (digitsToNat ed : Int)))
      else none
  match r1 with
  | '.' :: r2 =>
    let fp := r2.takeWhile isAsciiDigit
    let r3 := r2.dropWhile isAsciiDigit
    if ip = [] ∧ fp = [] then none
    else withExp ((digitsToNat ip : ℚ) + (digitsToNat fp : ℚ) / (10 : ℚ) ^ fp.length) r3
  | _ => if ip = [] then none else withExp (digitsToNat ip : ℚ) r1

/-- Python `str.splitlines` restricted to `\n`, `\r`, `\r\n`. -/
def splitLinesAux : List Char → List Char → List (List Char)
  | acc, [] => [acc.reverse]
  | acc, '\r' :: '\n' :: rest => acc.reverse :: splitLinesAux [] rest
  | acc, '\r' :: rest => acc.reverse :: splitLinesAux [] rest
  | acc, '\n' :: rest => acc.reverse :: splitLinesAux [] rest
  | acc, c :: rest => splitLinesAux (c :: acc) rest

/-- `response.text.splitlines()` (Python drops a trailing empty piece). -/
def pySplitlines (s : String) : List (List Char) :=
  match s.data with
  | [] => []
  | l =>
    match (splitLinesAux [] l).reverse with
    | [] :: rest => rest.reverse
    | r => r.reverse

/-- The first `Crawl-delay:` directive value that `float()` accepts, if any:
the `for line in response.text.splitlines()` loop of `get_crawl_delay`
(a line whose value fails to parse is skipped by the `except ValueError`). -/
def crawlDelayDirective (text : String) : Option ℚ :=
  (pySplitlines text).firstM fun line =>
    if "crawl-delay:".data.isPrefixOf (pyLower line) then
      pyFloat (pyStrip (line.dropWhile (fun c => c ≠ ':')).tail)
    else none

/-- Configuration of `RateLimiter` (`DEFAULT_CRAWL_DELAY`,
`RESPECT_ROBOTS_TXT`). -/
structure RLConfig where
  defaultCrawlDelay : ℚ
  respectRobots : Bool

def dGet (k : String) (m : List (String × ℚ)) : Option ℚ :=
  (m.find? (fun p => p.1 = k)).map (fun p => p.2)

def dPut (k : String) (v : ℚ) (m : List (String × ℚ)) : List (String × ℚ) :=
  if (m.find? (fun p => p.1 = k)).isSome then
    m.map (fun p => if p.1 = k then (k, v) else p)
  else m ++ [(k, v)]

/-- `RateLimiter.get_crawl_delay`: returns the delay, the updated
`self.crawl_delays` memo, and the list of HTTP requests performed. -/
def getCrawlDelay (cfg : RLConfig) (robots : String → Option (Nat × String))
    (crawlDelays : List (String × ℚ)) (domain : String) :
    ℚ × List (String × ℚ) × List String :=
  match dGet domain crawlDelays with
  | some d => (d, crawlDelays, [])
  | none =>
    let delay :=
      if cfg.respectRobots then
        match robots domain with
        | some (status, text) =>
          if status = 200 then
            match crawlDelayDirective text with
            | some d => d
            | none => cfg.defaultCrawlDelay
          else cfg.defaultCrawlDelay
        | none => cfg.defaultCrawlDelay
      else cfg.defaultCrawlDelay
    let reqs := if cfg.respectRobots then [s!"GET https://{domain}/robots.txt"] else []
    (delay, dPut domain delay crawlDelays, reqs)

/-! ## Retry-queue processing (`app.py`)

`process_retry_queue` drives the per-URL retry lifecycle.  The verification
and import outcomes for each URL are oracle inputs (`verify`, `imp`);
`now` stands for the current timestamp written by `add_retry`. -/

/-- Python `a or b` on strings. -/
def orElseStr (a b : String) : String := if a = "" then b else a

/-- `queue_entry.get("attempts", 0)` after an `add_retry`. -/
def attemptsNow (st : StorageState) (urlKey : String) : Nat :=
  match qGet urlKey st.retry_queue with
  | some e => e.attempts
  | none => 0

/-- The body of the `for url, meta in pending` loop of `process_retry_queue`. -/
def processRetryEntry (maxAttempts : Nat) (verify : String → VerifyResult)
    (imp : String → ImportResult) (now : String) (st : StorageState)
    (entry : String × RetryEntry) : StorageState :=
  let url := entry.1
  let urlKey := orElseStr (canonicalize_url url) url
  let attempts := entry.2.attempts
  if maxAttempts ≤ attempts then
    addReject (removeRetry st urlKey) urlKey
  else
    let v := verify url
    if ¬v.accepted then
      if v.transient then
        let st1 := addRetry st urlKey
          (orElseStr ((v.reason).getD "") "Transient verification failure") true now
        if maxAttempts ≤ attemptsNow st1 urlKey then
          addReject (removeRetry st1 urlKey) urlKey
        else st1
      else addReject (removeRetry st urlKey) urlKey
    else
      let (imported, importError, importTransient) := imp url
      if imported then addImported st urlKey
      else if importTransient then
        let st1 := addRetry st urlKey
          (orElseStr (importError.getD "") "Transient import failure") true now
        if maxAttempts ≤ attemptsNow st1 urlKey then
          addReject (removeRetry st1 urlKey) urlKey
        else st1
      else addReject (removeRetry st urlKey) urlKey

/-- `process_retry_queue`: iterate the loop body over the snapshot
`pending = list(storage.retry_queue.items())`. -/
def processRetryQueue (maxAttempts : Nat) (verify : String → VerifyResult)
    (imp : String → ImportResult) (now : String) (st : StorageState) :
    StorageState :=
  if st.retry_queue = [] then st
  else st.retry_queue.foldl (processRetryEntry maxAttempts verify imp now) st

/-- `handle_import_result` from `app.run` (the storage effect; the
`site_stats` counters are observational and omitted). -/
def handleImportResult (st : StorageState) (urlKey : String) (imported : Bool)
    (importError : Option String) (importTransient : Bool) (now : String) :
    Bool × StorageState :=
  if imported then (true, addImported st urlKey)
  else if importTransient then
    (false, addRetry st urlKey (orElseStr (importError.getD "") "Transient import failure") true now)
  else (false, addReject st urlKey)

/-- The app-side key `url_key = canonicalize_url(url) or url`. -/
def appUrlKey (url : String) : String := orElseStr (canonicalize_url url) url

/-- The spec's sitemap-index scenario: an index listing a post sitemap and a
page sitemap, each resolving to a URL set. -/
def sitemapScenarioFetch : String → Option (Nat × SitemapDoc)
  | "https://s/sitemap.xml" =>
    some (200, SitemapDoc.index
      ["https://s/sitemap-post-1.xml", "https://s/sitemap-page-1.xml"])
  | "https://s/sitemap-post-1.xml" =>
    some (200, SitemapDoc.urlset ["https://s/recipe-1", "https://s/recipe-2"])
  | "https://s/sitemap-page-1.xml" =>
    some (200, SitemapDoc.urlset ["https://s/page-1"])
  | _ => none

/-- A key is in exactly one of the three collections. -/
def exactlyOne (st : StorageState) (k : String) : Prop :=
  (k ∈ st.imported ∧ k ∉ st.rejects ∧ ¬qMem k st.retry_queue) ∨
  (k ∉ st.imported ∧ k ∈ st.rejects ∧ ¬qMem k st.retry_queue) ∨
  (k ∉ st.imported ∧ k ∉ st.rejects ∧ qMem k st.retry_queue)

instance (st : StorageState) (k : String) : Decidable (exactlyOne st k) := by
  unfold exactlyOne; infer_instance

/-! ## Small lemmas about the storage containers -/

theorem mem_setAdd_self (k : String) (s : List String) : k ∈ setAdd k s := by
  unfold setAdd; split <;> simp_all

theorem mem_setAdd_iff (a k : String) (s : List String) :
    a ∈ setAdd k s ↔ a = k ∨ a ∈ s := by
  unfold setAdd; split <;> simp_all

theorem not_qMem_qPop (k : String) (q : List (String × RetryEntry)) :
    ¬qMem k (qPop k q) := by
  unfold qMem qPop
  simp only [List.mem_map, List.mem_filter]
  rintro ⟨p, ⟨-, hne⟩, rfl⟩
  simp at hne

theorem qMem_qPop_iff (a k : String) (q : List (String × RetryEntry)) :
    qMem a (qPop k q) ↔ a ≠ k ∧ qMem a q := by
  unfold qMem qPop
  simp only [List.mem_map, List.mem_filter]
  constructor
  · rintro ⟨p, ⟨hp, hne⟩, rfl⟩
    simp only [decide_eq_true_eq] at hne
    exact ⟨by simpa using hne, p, hp, rfl⟩
  · rintro ⟨hne, p, hp, rfl⟩
    exact ⟨p, ⟨hp, by simpa using hne⟩, rfl⟩

theorem qMem_qPut_self (k : String) (v : RetryEntry)
    (q : List (String × RetryEntry)) : qMem k (qPut k v q) := by
  unfold qMem qPut
  split
  · next h =>
    rw [List.find?_isSome] at h
    obtain ⟨p, hp, hpk⟩ := h
    simp only [decide_eq_true_eq] at hpk
    exact List.mem_map.mpr ⟨(k, v), List.mem_map.mpr ⟨p, hp, by simp [hpk]⟩, rfl⟩
  · simp [qMem]

theorem qMem_qPut_iff (a k : String) (v : RetryEntry)
    (q : List (String × RetryEntry)) :
    qMem a (qPut k v q) ↔ a = k ∨ qMem a q := by
  unfold qMem qPut
  split
  · next h =>
    simp only [List.map_map, List.mem_map]
    constructor
    · rintro ⟨p, hp, rfl⟩
      by_cases hk : p.1 = k
      · left; simp [Function.comp, hk]
      · right; exact ⟨p, hp, by simp [Function.comp, hk]⟩
    · rintro (rfl | ⟨p, hp, rfl⟩)
      · rw [List.find?_isSome] at h
        obtain ⟨p, hp, hpk⟩ := h
        simp only [decide_eq_true_eq] at hpk
        exact ⟨p, hp, by simp [Function.comp, hpk]⟩
      · by_cases hk : p.1 = k
        · exact ⟨p, hp, by simp [Function.comp, hk]⟩
        · exact ⟨p, hp, by simp [Function.comp, hk]⟩
  · simp only [List.map_append, List.mem_append, List.map_cons, List.map_nil,
      List.mem_singleton]
    exact or_comm

/-- Membership of the key after a call sequence on one URL, fully
characterised: `imported`/`rejects` record whether the corresponding call ever
happened (they are never cleared), while `retry_queue` holds the key exactly
when the *last* call was an `add_retry` (both other calls pop it). -/
theorem runCalls_mem_characterization (u : String) (calls : List StoreCall) :
    (normalizeUrlKey u ∈ (runCalls u emptyStore calls).imported ↔
      StoreCall.imp ∈ calls) ∧
    (normalizeUrlKey u ∈ (runCalls u emptyStore calls).rejects ↔
      StoreCall.rej ∈ calls) ∧
    (qMem (normalizeUrlKey u) (runCalls u emptyStore calls).retry_queue ↔
      ∃ c, calls.getLast? = some c ∧ c.isRet) := by
  induction calls using List.reverseRecOn with
  | nil => simp [runCalls, emptyStore, qMem]
  | append_singleton cs c ih =>
    obtain ⟨ih1, ih2, ih3⟩ := ih
    have hrun : runCalls u emptyStore (cs ++ [c]) =
        applyCall u (runCalls u emptyStore cs) c := by
      simp [runCalls, List.foldl_append]
    cases c with
    | imp =>
      refine ⟨?_, ?_, ?_⟩
      · simp [hrun, applyCall, addImported, mem_setAdd_self]
      · simp only [hrun, applyCall, addImported, List.mem_append,
          List.mem_singleton, ih2]
        simp
      · simp only [hrun, applyCall, addImported, List.getLast?_concat]
        simp [not_qMem_qPop, StoreCall.isRet]
    | rej =>
      refine ⟨?_, ?_, ?_⟩
      · simp only [hrun, applyCall, addReject, List.mem_append,
          List.mem_singleton, ih1]
        simp
      · simp [hrun, applyCall, addReject, mem_setAdd_self]
      · simp only [hrun, applyCall, addReject, List.getLast?_concat]
        simp [not_qMem_qPop, StoreCall.isRet]
    | ret reason increment now =>
      refine ⟨?_, ?_, ?_⟩
      · simp only [hrun, applyCall, addRetry, List.mem_append,
          List.mem_singleton, ih1]
        simp
      · simp only [hrun, applyCall, addRetry, List.mem_append,
          List.mem_singleton, ih2]
        simp
      · simp only [hrun, applyCall, addRetry, List.getLast?_concat]
        simp [qMem_qPut_self, StoreCall.isRet]

/-- C1 counterexample: `add_imported` followed by `add_reject` on the same key
leaves the key in `imported` *and* `rejects` — neither call removes the key
from the other terminal set (only `retry_queue` is cleaned), so the key is not
in exactly one collection. -/
theorem add_imported_then_add_reject_breaks_exclusivity :
    normalizeUrlKey "http://a/b" ∈
      (runCalls "http://a/b" emptyStore [StoreCall.imp, StoreCall.rej]).imported ∧
    normalizeUrlKey "http://a/b" ∈
      (runCalls "http://a/b" emptyStore [StoreCall.imp, StoreCall.rej]).rejects ∧
    ¬exactlyOne (runCalls "http://a/b" emptyStore [StoreCall.imp, StoreCall.rej])
      (normalizeUrlKey "http://a/b") := by decide

/-- C1 (amended): after any nonempty sequence of `add_imported` / `add_reject`
/ `add_retry` calls on one key, the key is in *at least* one of the three
collections, and membership is characterised by: `imported` iff some call was
`add_imported`, `rejects` iff some call was `add_reject`, `retry_queue` iff
the last call was `add_retry`.  (Exactly-one fails: `imported` and `rejects`
are never cleared by the other transitions.) -/
theorem storage_single_key_membership (u : String) (calls : List StoreCall) :
    (normalizeUrlKey u ∈ (runCalls u emptyStore calls).imported ↔
      StoreCall.imp ∈ calls) ∧
    (normalizeUrlKey u ∈ (runCalls u emptyStore calls).rejects ↔
      StoreCall.rej ∈ calls) ∧
    (qMem (normalizeUrlKey u) (runCalls u emptyStore calls).retry_queue ↔
      ∃ c, calls.getLast? = some c ∧ c.isRet) ∧
    (calls ≠ [] →
      normalizeUrlKey u ∈ (runCalls u emptyStore calls).imported ∨
      normalizeUrlKey u ∈ (runCalls u emptyStore calls).rejects ∨
      qMem (normalizeUrlKey u) (runCalls u emptyStore calls).retry_queue) := by
  obtain ⟨h1, h2, h3⟩ := runCalls_mem_characterization u calls
  refine ⟨h1, h2, h3, fun hne => ?_⟩
  obtain ⟨c, hc⟩ := List.getLast?_isSome.mpr hne |> Option.isSome_iff_exists.mp
  have hmem : c ∈ calls := List.mem_of_mem_getLast? (by simp [hc])
  cases c with
  | imp => exact Or.inl (h1.mpr hmem)
  | rej => exact Or.inr (Or.inl (h2.mpr hmem))
  | ret r i n => exact Or.inr (Or.inr (h3.mpr ⟨_, hc, trivial⟩))

/-- Witness for `storage_single_key_membership` at a concrete key and a
one-call sequence. -/
theorem storage_single_key_membership_witness :
    normalizeUrlKey "http://a/b" ∈
      (runCalls "http://a/b" emptyStore [StoreCall.imp]).imported ∨
    normalizeUrlKey "http://a/b" ∈
      (runCalls "http://a/b" emptyStore [StoreCall.imp]).rejects ∨
    qMem (normalizeUrlKey "http://a/b")
      (runCalls "http://a/b" emptyStore [StoreCall.imp]).retry_queue :=
  (storage_single_key_membership "http://a/b" [StoreCall.imp]).2.2.2 (by decide)

/-- C2 counterexample: with `MEALIE_ENABLED=false` (and dry-run on),
`import_recipe` returns the permanent failure `"Mealie import is disabled"`
for every URL — not success — because the `MEALIE_ENABLED` guard runs before
the dry-run branch. -/
theorem dry_run_import_fails_when_mealie_disabled :
    importRecipe ⟨false, true, false⟩ ⟨none, fun _ => PostResp.ok 200 ""⟩
      initImportState "https://example.com/r" =
    ((false, some "Mealie import is disabled", false), initImportState, []) := by
  decide

/-- C2 (amended): when Mealie is enabled, dry-run `import_recipe` returns
success `(imported=true, no error, not transient)` for every URL, performs no
HTTP request, and leaves the importer state unchanged.  (When Mealie is
disabled, `import_recipe` instead fails with `"Mealie import is disabled"`
even in dry-run mode.) -/
theorem dry_run_import_always_succeeds (precheck : Bool) (backend : Backend)
    (st : ImportState) (url : String) :
    importRecipe ⟨true, true, precheck⟩ backend st url = ((true, none, false), st, []) := by
  simp [importRecipe, importToMealie]

/-- C5 counterexample: a `requests.exceptions.RequestException` that is
neither a timeout nor a connection error (e.g. `TooManyRedirects`) is
classified *transient* by `verify_recipe`, where the claim requires every
exception other than connection errors and timeouts to be permanent. -/
theorem request_exception_is_transient :
    (verifyRecipe ⟨true, "en", true⟩ "https://example.com/r"
      (FetchOutcome.exc FetchExc.requestExc)).transient = true ∧
    (verifyRecipe ⟨true, "en", true⟩ "https://example.com/r"
      (FetchOutcome.exc FetchExc.requestExc)).accepted = false := by decide

/-- C5 (amended): for a URL that passes the pre-filter, `verify_recipe`
classifies failures as: non-200 status → rejection with
`transient = status ∈ TRANSIENT_HTTP_CODES`; timeouts, connection errors
*and other request-level exceptions* (`requests.exceptions.RequestException`)
→ transient rejection; any non-request exception → permanent rejection. -/
theorem verify_recipe_tri_state (cfg : LangConfig) (url : String)
    (h : preFilterCandidate url = none) :
    (∀ status page, status ≠ 200 →
      verifyRecipe cfg url (FetchOutcome.ok status page) =
        ⟨false, false, some s!"HTTP {status}",
          decide (status ∈ TRANSIENT_HTTP_CODES)⟩) ∧
    (∀ e : FetchExc,
      (verifyRecipe cfg url (FetchOutcome.exc e)).accepted = false ∧
      ((verifyRecipe cfg url (FetchOutcome.exc e)).transient =
        decide (e ∈ [FetchExc.timeout, FetchExc.connError, FetchExc.requestExc]))) := by
  constructor
  · intro status page hs
    simp only [verifyRecipe, h]
    rw [if_pos hs]
  · intro e
    cases e <;> simp [verifyRecipe, h]

/-- Witness for `verify_recipe_tri_state`: concrete URL passing the
pre-filter, concrete non-200 status. -/
theorem verify_recipe_tri_state_witness :
    verifyRecipe ⟨true, "en", true⟩ "https://example.com/r"
      (FetchOutcome.ok 503 ⟨false, false, false, none, none⟩) =
      ⟨false, false, some "HTTP 503", true⟩ ∧
    (verifyRecipe ⟨true, "en", true⟩ "https://example.com/r"
      (FetchOutcome.exc FetchExc.otherExc)).transient = false := by
  have h := verify_recipe_tri_state ⟨true, "en", true⟩ "https://example.com/r" (by decide)
  refine ⟨?_, ?_⟩
  · have := h.1 503 ⟨false, false, false, none, none⟩ (by decide)
    rw [this]; decide
  · have := (h.2 FetchExc.otherExc).2
    rw [this]; decide

/-- C6: a 409 (duplicate) response to the import `POST` is reported as
success `(imported=true, no error, not transient)`, with exactly the same
result and state effect as a 200/201/202 response. -/
theorem import_409_treated_as_success (url body body' : String)
    (l l' : Option (List String)) (s : Nat) (hs : s ∈ [200, 201, 202]) :
    (importRecipe ⟨true, false, false⟩ ⟨l, fun _ => PostResp.ok 409 body⟩
        initImportState url).1 = (true, none, false) ∧
    importRecipe ⟨true, false, false⟩ ⟨l, fun _ => PostResp.ok 409 body⟩
        initImportState url =
      importRecipe ⟨true, false, false⟩ ⟨l', fun _ => PostResp.ok s body'⟩
        initImportState url := by
  fin_cases hs <;>
    simp [importRecipe, importToMealie, precheckDuplicateSource, initImportState,
      mealieEndpointCandidates, importPostLoop, TRANSIENT_HTTP_CODES]

/-- Witness for `import_409_treated_as_success` at concrete inputs. -/
theorem import_409_treated_as_success_witness :
    (importRecipe ⟨true, false, false⟩ ⟨none, fun _ => PostResp.ok 409 "dup"⟩
        initImportState "https://example.com/r").1 = (true, none, false) :=
  (import_409_treated_as_success "https://example.com/r" "dup" "" none none 200
    (by decide)).1

/-- C8: on a sitemap index, `fetch_sitemap_urls` keeps the sub-sitemaps whose
URL contains `"post"` or `"recipe"` (falling back to the unfiltered list when
none match), recurses into at most the first 3 at `depth + 1`, concatenating
results; any depth beyond 2 returns `[]`; in the spec's scenario only the post
sitemap is crawled. -/
theorem fetch_sitemap_urls_index_behavior :
    (∀ (fetch : String → Option (Nat × SitemapDoc)) (url : String) (depth : Nat),
      2 < depth → fetchSitemapUrls fetch url depth = []) ∧
    (∀ (fetch : String → Option (Nat × SitemapDoc)) (url : String) (depth : Nat)
      (subs : List String), depth ≤ 2 →
      fetch url = some (200, SitemapDoc.index subs) →
      fetchSitemapUrls fetch url depth =
        (let subMaps := subs.filterMap
          (fun t => if t = "" then none else some (⟨pyStrip t.data⟩ : String))
         let targets0 := subMaps.filter
          (fun s => containsSub s.data "post".data || containsSub s.data "recipe".data)
         let targets := if targets0 = [] then subMaps else targets0
         (targets.take 3).flatMap (fun s => fetchSitemapUrls fetch s (depth + 1)))) ∧
    fetchSitemapUrls sitemapScenarioFetch "https://s/sitemap.xml" 0 =
      ["https://s/recipe-1", "https://s/recipe-2"] := by
  refine ⟨?_, ?_, by decide⟩
  · intro fetch url depth h
    unfold fetchSitemapUrls
    have h3 : 3 - depth = 0 := by omega
    rw [h3]
    rfl
  · intro fetch url depth subs hd hf
    have h3 : 3 - depth = (3 - (depth + 1)) + 1 := by omega
    simp only [fetchSitemapUrls, h3, fetchSitemapUrlsGo]
    rw [hf]
    simp

/-- Witness for `fetch_sitemap_urls_index_behavior`: the depth guard at
depth 3 and the index equation at depth 0, on the concrete scenario. -/
theorem fetch_sitemap_urls_index_behavior_witness :
    fetchSitemapUrls sitemapScenarioFetch "https://s/sitemap.xml" 3 = [] ∧
    fetchSitemapUrls sitemapScenarioFetch "https://s/sitemap.xml" 0 =
      (([("https://s/sitemap-post-1.xml" : String)]).take 3).flatMap
        (fun s => fetchSitemapUrls sitemapScenarioFetch s 1) := by
  constructor
  · exact fetch_sitemap_urls_index_behavior.1 sitemapScenarioFetch
      "https://s/sitemap.xml" 3 (by decide)
  · rw [fetch_sitemap_urls_index_behavior.2.1 sitemapScenarioFetch
      "https://s/sitemap.xml" 0
      ["https://s/sitemap-post-1.xml", "https://s/sitemap-page-1.xml"]
      (by decide) (by decide)]
    decide

theorem find?_map_replace (k : String) (v : ℚ) :
    ∀ m : List (String × ℚ), (m.find? (fun p => p.1 = k)).isSome →
      (m.map (fun p => if p.1 = k then (k, v) else p)).find? (fun p => p.1 = k) =
        some (k, v)
  | [], h => by simp at h
  | p :: ps, h => by
    by_cases hk : p.1 = k
    · simp [List.find?_cons, hk]
    · have h' : (ps.find? (fun p => p.1 = k)).isSome := by
        simpa [List.find?_cons, hk] using h
      simpa [List.find?_cons, hk] using find?_map_replace k v ps h'

theorem find?_append_of_none {α : Type} (pred : α → Bool) (x : α) :
    ∀ m : List α, m.find? pred = none →
      (m ++ [x]).find? pred = if pred x then some x else none
  | [], _ => by
    simp only [List.nil_append, List.find?_cons]
    cases hx : pred x <;> simp [hx]
  | p :: ps, h => by
    have hp : ¬pred p := by
      intro hpp
      simp [List.find?_cons, hpp] at h
    have h' : ps.find? pred = none := by
      simpa [List.find?_cons, hp] using h
    simpa [List.find?_cons, hp] using find?_append_of_none pred x ps h'

theorem dGet_dPut_self (k : String) (v : ℚ) (m : List (String × ℚ)) :
    dGet k (dPut k v m) = some v := by
  unfold dGet dPut
  split
  · next h => rw [find?_map_replace k v m h]; rfl
  · next h =>
    have hnone : m.find? (fun p => p.1 = k) = none := by
      rcases hfind : m.find? (fun p => p.1 = k) with - | p
      · exact hfind
      · exact absurd (by simp [hfind]) h
    rw [find?_append_of_none _ _ m hnone]
    simp

/-- C9: `get_crawl_delay` (a) returns the cached delay with no lookup on a
memo hit; (b) returns the parsed `Crawl-delay:` value when the robots.txt
fetch yields 200 and some directive line parses; (c) falls back to the
configured default on a fetch exception, a non-200 status, or no parseable
directive (never raising — the model is a total function); and (d) is
memoized: after any first call, a second call for the same domain returns the
same delay with no further robots.txt request, whatever the oracle then does. -/
theorem get_crawl_delay_behavior :
    (∀ (cfg : RLConfig) (robots : String → Option (Nat × String)) m domain d,
      dGet domain m = some d → getCrawlDelay cfg robots m domain = (d, m, [])) ∧
    (∀ (dflt : ℚ) (robots : String → Option (Nat × String)) m domain text d,
      dGet domain m = none → robots domain = some (200, text) →
      crawlDelayDirective text = some d →
      getCrawlDelay ⟨dflt, true⟩ robots m domain =
        (d, dPut domain d m, [s!"GET https://{domain}/robots.txt"])) ∧
    (∀ (dflt : ℚ) (robots : String → Option (Nat × String)) m domain,
      dGet domain m = none →
      (robots domain = none ∨
        (∃ status text, robots domain = some (status, text) ∧
          (status ≠ 200 ∨ crawlDelayDirective text = none))) →
      getCrawlDelay ⟨dflt, true⟩ robots m domain =
        (dflt, dPut domain dflt m, [s!"GET https://{domain}/robots.txt"])) ∧
    (∀ (cfg : RLConfig) (robots robots2 : String → Option (Nat × String)) m domain,
      getCrawlDelay cfg robots2 (getCrawlDelay cfg robots m domain).2.1 domain =
        ((getCrawlDelay cfg robots m domain).1,
         (getCrawlDelay cfg robots m domain).2.1, [])) := by
  refine ⟨?_, ?_, ?_, ?_⟩
  · intro cfg robots m domain d h
    unfold getCrawlDelay
    rw [h]
  · intro dflt robots m domain text d hm hr hd
    unfold getCrawlDelay
    rw [hm, hr]
    simp [hd]
  · intro dflt robots m domain hm hfail
    unfold getCrawlDelay
    rw [hm]
    rcases hfail with hr | ⟨status, text, hr, hbad⟩
    · simp [hr]
    · rcases hbad with hst | hdir
      · simp [hr, hst]
      · by_cases hst : status = 200
        · simp [hr, hst, hdir]
        · simp [hr, hst]
  · intro cfg robots robots2 m domain
    rcases hm : dGet domain m with - | d
    · have hstep : (getCrawlDelay cfg robots m domain).2.1 =
          dPut domain (getCrawlDelay cfg robots m domain).1 m := by
        unfold getCrawlDelay
        rw [hm]
      rw [hstep]
      unfold getCrawlDelay
      rw [dGet_dPut_self]
    · have h1 : getCrawlDelay cfg robots m domain = (d, m, []) := by
        unfold getCrawlDelay; rw [hm]
      rw [h1]
      unfold getCrawlDelay
      rw [hm]

theorem crawl_delay_directive_example :
    crawlDelayDirective "User-agent: *\nCrawl-delay: 4" = some 4 := by
  have h1 : crawlDelayDirective "User-agent: *\nCrawl-delay: 4" =
      some ((1 : ℚ) * ((digitsToNat "4".data : ℕ) : ℚ)) := rfl
  have h2 : digitsToNat "4".data = 4 := by decide
  rw [h1, h2]
  norm_num

/-- Witness for `get_crawl_delay_behavior` at concrete inputs: a robots.txt
with a `Crawl-delay: 4` line, then a memoized second call, and a default
fallback on a failed fetch. -/
theorem get_crawl_delay_behavior_witness :
    getCrawlDelay ⟨2, true⟩ (fun _ => some (200, "User-agent: *\nCrawl-delay: 4"))
      [] "a.com" = (4, dPut "a.com" 4 [], ["GET https://a.com/robots.txt"]) ∧
    getCrawlDelay ⟨2, true⟩ (fun _ => none) [("a.com", 4)] "a.com" =
      (4, [("a.com", 4)], []) ∧
    getCrawlDelay ⟨2, true⟩ (fun _ => none) [] "b.com" =
      (2, dPut "b.com" 2 [], ["GET https://b.com/robots.txt"]) := by
  refine ⟨?_, ?_, ?_⟩
  · exact get_crawl_delay_behavior.2.1 2
      (fun _ => some (200, "User-agent: *\nCrawl-delay: 4")) [] "a.com"
      "User-agent: *\nCrawl-delay: 4" 4 rfl rfl crawl_delay_directive_example
  · exact get_crawl_delay_behavior.1 ⟨2, true⟩ (fun _ => none) [("a.com", 4)]
      "a.com" 4 (by decide)
  · exact get_crawl_delay_behavior.2.2.1 2 (fun _ => none) [] "b.com" rfl
      (Or.inl rfl)

/-! ## Retry exhaustion (C7) -/

theorem orElseStr_of_fixed {k : String} (hk : canonicalize_url k = k) :
    orElseStr (canonicalize_url k) k = k := by
  unfold orElseStr
  rw [hk]
  exact ite_self k

theorem normalizeUrlKey_of_fixed {k : String} (hk : canonicalize_url k = k) :
    normalizeUrlKey k = k := by
  by_cases hk0 : k = ""
  · subst hk0
    decide
  · simp [normalizeUrlKey, hk, hk0]

theorem qGet_singleton (k : String) (e : RetryEntry) : qGet k [(k, e)] = some e := by
  simp [qGet, List.find?]

theorem qPut_singleton (k : String) (v e : RetryEntry) : qPut k v [(k, e)] = [(k, v)] := by
  simp [qPut, List.find?]

theorem qPop_singleton (k : String) (e : RetryEntry) : qPop k [(k, e)] = [] := by
  simp [qPop]

/-- One `process_retry_queue` pass over a queue holding exactly one entry
whose key is a fixed point of `canonicalize_url`, when verification fails
transiently: at or beyond the attempt cap the key is evicted to `rejects`,
otherwise the attempt counter is incremented (and the entry evicted if the
incremented counter reaches the cap). -/
theorem processRetryQueue_singleton (m : Nat) (vf : String → VerifyResult)
    (im : String → ImportResult) (t : String) (rj ims : List String)
    (k : String) (entry : RetryEntry) (hk : canonicalize_url k = k)
    (hvacc : (vf k).accepted = false) (hvtr : (vf k).transient = true) :
    processRetryQueue m vf im t ⟨rj, ims, [(k, entry)]⟩ =
      if m ≤ entry.attempts then ⟨setAdd k rj, ims, []⟩
      else if m ≤ entry.attempts + 1 then ⟨setAdd k rj, ims, []⟩
      else ⟨rj, ims,
        [(k, ⟨orElseStr ((vf k).reason.getD "") "Transient verification failure",
          entry.attempts + 1, t⟩)]⟩ := by
  have hkey := orElseStr_of_fixed hk
  have hnorm := normalizeUrlKey_of_fixed hk
  unfold processRetryQueue
  simp only [List.foldl_cons, List.foldl_nil, reduceCtorEq, if_false,
    List.cons_ne_self]
  unfold processRetryEntry
  simp only [hkey]
  by_cases h1 : m ≤ entry.attempts
  · simp [h1, addReject, removeRetry, hnorm, qPop_singleton, qPop]
  · simp only [h1, if_false, hvacc, Bool.false_eq_true, hvtr, if_true,
      Bool.not_false]
    have haddr : addRetry ⟨rj, ims, [(k, entry)]⟩ k
        (orElseStr ((vf k).reason.getD "") "Transient verification failure") true t =
        ⟨rj, ims,
          [(k, ⟨orElseStr ((vf k).reason.getD "") "Transient verification failure",
            entry.attempts + 1, t⟩)]⟩ := by
      simp [addRetry, hnorm, qGet_singleton, qPut_singleton]
    rw [haddr]
    have hnow : attemptsNow ⟨rj, ims,
        [(k, ⟨orElseStr ((vf k).reason.getD "") "Transient verification failure",
          entry.attempts + 1, t⟩)]⟩ k = entry.attempts + 1 := by
      simp [attemptsNow, qGet_singleton]
    rw [hnow]
    by_cases h2 : m ≤ entry.attempts + 1
    · simp [h2, addReject, removeRetry, hnorm, qPop_singleton, qPop]
    · simp [h2]

/-- A pass over an empty queue is the identity. -/
theorem processRetryQueue_nil (m : Nat) (vf : String → VerifyResult)
    (im : String → ImportResult) (t : String) (rj ims : List String) :
    processRetryQueue m vf im t ⟨rj, ims, []⟩ = ⟨rj, ims, []⟩ := by
  simp [processRetryQueue]

/-- Iterating `process_retry_queue` from a fresh single-entry queue (attempts
= 1): after `n` passes the entry either has been evicted to `rejects`
(as soon as `n ≥ 1` and `m ≤ n + 1`) or is still queued with `n + 1`
attempts. -/
theorem retry_iterate_characterization (m : Nat) (vf : String → VerifyResult)
    (im : String → ImportResult) (t : String) (rj ims : List String)
    (k r0 : String) (hk : canonicalize_url k = k)
    (hvacc : (vf k).accepted = false) (hvtr : (vf k).transient = true) :
    ∀ n : Nat,
      (processRetryQueue m vf im t)^[n] ⟨rj, ims, [(k, ⟨r0, 1, t⟩)]⟩ =
        if 1 ≤ n ∧ m ≤ n + 1 then ⟨setAdd k rj, ims, []⟩
        else ⟨rj, ims,
          [(k, ⟨if n = 0 then r0
                else orElseStr ((vf k).reason.getD "") "Transient verification failure",
            n + 1, t⟩)]⟩ := by
  intro n
  induction n with
  | zero => simp
  | succ n ih =>
    rw [Function.iterate_succ_apply', ih]
    by_cases hrej : 1 ≤ n ∧ m ≤ n + 1
    · rw [if_pos hrej, processRetryQueue_nil,
        if_pos (show 1 ≤ n + 1 ∧ m ≤ n + 1 + 1 by omega)]
    · rw [if_neg hrej,
        processRetryQueue_singleton m vf im t rj ims k _ hk hvacc hvtr]
      dsimp only
      by_cases h2 : m ≤ n + 2
      · rw [if_pos (show 1 ≤ n + 1 ∧ m ≤ n + 1 + 1 by omega)]
        by_cases h1 : m ≤ n + 1
        · rw [if_pos h1]
        · rw [if_neg h1, if_pos (show m ≤ n + 1 + 1 by omega)]
      · have h1 : ¬m ≤ n + 1 := by omega
        rw [if_neg h1, if_neg (show ¬m ≤ n + 1 + 1 by omega),
          if_neg (show ¬(1 ≤ n + 1 ∧ m ≤ n + 1 + 1) by omega)]
        simp

/-- C7 (amended): provided the URL's storage key is a fixed point of
`canonicalize_url` (true of every well-formed URL; see the counterexample for
the exception), a URL that first fails transiently (entering the retry queue
with one attempt) and keeps failing transiently is, after `n ≥ 1` retry-queue
passes with `n + 1 ≥ max_attempts`, in `rejects` and no longer in
`retry_queue`. -/
theorem retry_exhaustion_rejects (m : Nat) (u r0 t : String)
    (vf : String → VerifyResult) (im : String → ImportResult)
    (hk : canonicalize_url (normalizeUrlKey u) = normalizeUrlKey u)
    (hvacc : (vf (normalizeUrlKey u)).accepted = false)
    (hvtr : (vf (normalizeUrlKey u)).transient = true)
    (n : Nat) (h1 : 1 ≤ n) (hn : m ≤ n + 1) :
    normalizeUrlKey u ∈
      ((processRetryQueue m vf im t)^[n] (addRetry emptyStore u r0 true t)).rejects ∧
    ¬qMem (normalizeUrlKey u)
      ((processRetryQueue m vf im t)^[n] (addRetry emptyStore u r0 true t)).retry_queue := by
  have hst0 : addRetry emptyStore u r0 true t =
      ⟨[], [], [(normalizeUrlKey u, ⟨r0, 1, t⟩)]⟩ := by
    simp [addRetry, emptyStore, qGet, qPut, List.find?]
  rw [hst0,
    retry_iterate_characterization m vf im t [] [] (normalizeUrlKey u) r0 hk hvacc hvtr n,
    if_pos ⟨h1, hn⟩]
  dsimp only
  exact ⟨mem_setAdd_self _ _, by simp [qMem]⟩

/-- Witness for `retry_exhaustion_rejects`: max attempts 3, four passes. -/
theorem retry_exhaustion_rejects_witness :
    normalizeUrlKey "http://b.com/x" ∈
      ((processRetryQueue 3 (fun _ => ⟨false, false, some "HTTP 503", true⟩)
          (fun _ => (false, some "HTTP 503", true)) "t")^[4]
        (addRetry emptyStore "http://b.com/x" "HTTP 503" true "t")).rejects ∧
    ¬qMem (normalizeUrlKey "http://b.com/x")
      ((processRetryQueue 3 (fun _ => ⟨false, false, some "HTTP 503", true⟩)
          (fun _ => (false, some "HTTP 503", true)) "t")^[4]
        (addRetry emptyStore "http://b.com/x" "HTTP 503" true "t")).retry_queue :=
  retry_exhaustion_rejects 3 "http://b.com/x" "HTTP 503" "t"
    (fun _ => ⟨false, false, some "HTTP 503", true⟩)
    (fun _ => (false, some "HTTP 503", true)) (by decide) rfl rfl 4
    (by decide) (by decide)

/-- C7 counterexample: for `"http://www.www.www.a/x"` the storage key is
`"http://www.a/x"` (one `www.` stripped per canonicalization), which is *not*
a fixed point of `canonicalize_url`; `process_retry_queue` computes
`url_key = "http://a/x"` from it, so eviction removes and rejects the wrong
key: after 5 passes at max-attempts 3 the URL's queue entry is still in
`retry_queue` (with its attempt counter still 1), contradicting "ends in
`rejected`, not `retry_queue`". -/
theorem retry_exhaustion_counterexample :
    normalizeUrlKey (appUrlKey "http://www.www.www.a/x") = "http://www.a/x" ∧
    qMem "http://www.a/x"
      ((processRetryQueue 3 (fun _ => ⟨false, false, some "HTTP 503", true⟩)
          (fun _ => (false, some "HTTP 503", true)) "t")^[5]
        (addRetry emptyStore (appUrlKey "http://www.www.www.a/x") "HTTP 503" true "t")).retry_queue ∧
    qGet "http://www.a/x"
      ((processRetryQueue 3 (fun _ => ⟨false, false, some "HTTP 503", true⟩)
          (fun _ => (false, some "HTTP 503", true)) "t")^[5]
        (addRetry emptyStore (appUrlKey "http://www.www.www.a/x") "HTTP 503" true "t")).retry_queue =
      some ⟨"HTTP 503", 1, "t"⟩ := by decide

/-! ## Key normalization (C10) -/

theorem pyUrlunsplit_ne_nil (scheme netloc path query : List Char)
    (h : scheme ≠ []) : pyUrlunsplit scheme netloc path query ≠ [] := by
  unfold pyUrlunsplit
  split_ifs <;> simp_all

theorem canonList_ne_nil {l : List Char} (h : pyStrip l ≠ []) : canonList l ≠ [] := by
  unfold canonList
  rw [if_neg h]
  rcases hparse : pyUrlsplit (pyStrip l) with - | parts
  · simpa [pyLower] using h
  · simp only [hparse]
    by_cases hsn : parts.scheme = [] ∨ parts.netloc = []
    · rw [if_pos hsn]
      simpa [pyLower] using h
    · rw [if_neg hsn]
      exact pyUrlunsplit_ne_nil _ _ _ _ (by simpa [pyLower] using fun hs => hsn (Or.inl hs))

/-- `canonicalize_url` returns the empty string exactly for inputs that strip
to the empty string (every other branch returns a nonempty string). -/
theorem canonicalize_url_eq_empty_iff (u : String) :
    canonicalize_url u = "" ↔ pyStrip u.data = [] := by
  constructor
  · intro h
    by_contra hne
    exact canonList_ne_nil hne (congrArg String.data h)
  · intro h
    simp [canonicalize_url, canonList, h]

theorem stripLower_of_strip_nil {u : String} (h : pyStrip u.data = []) :
    stripLower u = "" := by
  simp [stripLower, h, pyLower]

/-- C10: storage keys are normalized — the key equals `canonicalize_url` of
the input when that is nonempty and the stripped-lowercased input otherwise;
hence two URL variants with the same canonical form always map to the same
key, and `remove_retry` on any variant removes the entry stored under the
canonical key by `add_retry` on another variant. -/
theorem storage_keys_canonicalized :
    (∀ u : String, canonicalize_url u ≠ "" → normalizeUrlKey u = canonicalize_url u) ∧
    (∀ u : String, canonicalize_url u = "" → normalizeUrlKey u = stripLower u) ∧
    (∀ u v : String, canonicalize_url u = canonicalize_url v →
      normalizeUrlKey u = normalizeUrlKey v) ∧
    (∀ (st : StorageState) (u v r : String) (i : Bool) (t : String),
      canonicalize_url u = canonicalize_url v →
      ¬qMem (normalizeUrlKey u) (removeRetry (addRetry st u r i t) v).retry_queue) := by
  have hkey : ∀ u v : String, canonicalize_url u = canonicalize_url v →
      normalizeUrlKey u = normalizeUrlKey v := by
    intro u v h
    by_cases hcu : canonicalize_url u = ""
    · have hcv : canonicalize_url v = "" := by rw [← h]; exact hcu
      rw [normalizeUrlKey, normalizeUrlKey]
      simp only [hcu, hcv, ne_eq, not_true_eq_false, if_false]
      rw [stripLower_of_strip_nil ((canonicalize_url_eq_empty_iff u).mp hcu),
        stripLower_of_strip_nil ((canonicalize_url_eq_empty_iff v).mp hcv)]
    · have hcv : canonicalize_url v ≠ "" := by rw [← h]; exact hcu
      simp only [normalizeUrlKey, hcu, hcv, ne_eq, not_false_eq_true, if_true, h]
  refine ⟨?_, ?_, hkey, ?_⟩
  · intro u h
    simp [normalizeUrlKey, h]
  · intro u h
    simp [normalizeUrlKey, h]
  · intro st u v r i t h
    have := hkey u v h
    unfold removeRetry
    rw [← this]
    exact not_qMem_qPop _ _

/-- Witness for `storage_keys_canonicalized` at two cosmetic variants of one
URL. -/
theorem storage_keys_canonicalized_witness :
    normalizeUrlKey "https://www.Example.com/r/" = normalizeUrlKey "https://example.com/r" ∧
    ¬qMem (normalizeUrlKey "https://www.Example.com/r/")
      (removeRetry (addRetry emptyStore "https://www.Example.com/r/" "reason" true "t")
        "https://example.com/r").retry_queue ∧
    normalizeUrlKey "https://www.Example.com/r/" = canonicalize_url "https://www.Example.com/r/" := by
  refine ⟨?_, ?_, ?_⟩
  · exact storage_keys_canonicalized.2.2.1 "https://www.Example.com/r/"
      "https://example.com/r" (by decide)
  · exact storage_keys_canonicalized.2.2.2 emptyStore "https://www.Example.com/r/"
      "https://example.com/r" "reason" true "t" (by decide)
  · exact storage_keys_canonicalized.1 "https://www.Example.com/r/" (by decide)

/-! ## Character-level lemmas for the canonicalization proofs -/

theorem char_toNat_ofNat_of_lt {n : Nat} (h : n < 55296) : (Char.ofNat n).toNat = n := by
  unfold Char.ofNat
  rw [dif_pos (Or.inl h)]
  simp [Char.ofNatAux, Char.toNat, UInt32.toNat, UInt32.ofNat']

theorem char_eq_iff_toNat {a b : Char} : a = b ↔ a.toNat = b.toNat := by
  constructor
  · intro h; rw [h]
  · intro h
    exact Char.ext (UInt32.toNat.inj h)

theorem lowerChar_toNat (c : Char) :
    (lowerChar c).toNat =
      if 65 ≤ c.toNat ∧ c.toNat ≤ 90 then c.toNat + 32 else c.toNat := by
  unfold lowerChar
  split
  · next h => exact char_toNat_ofNat_of_lt (by omega)
  · rfl

theorem lowerChar_eq_of_notLetter (c d : Char)
    (h1 : d.toNat < 65 ∨ 90 < d.toNat) (h2 : d.toNat < 97 ∨ 122 < d.toNat) :
    (lowerChar c = d) ↔ (c = d) := by
  rw [char_eq_iff_toNat, char_eq_iff_toNat, lowerChar_toNat]
  split <;> omega

theorem decide_lowerChar_eq (c d : Char)
    (h1 : d.toNat < 65 ∨ 90 < d.toNat) (h2 : d.toNat < 97 ∨ 122 < d.toNat) :
    decide (lowerChar c = d) = decide (c = d) :=
  decide_eq_decide.mpr (lowerChar_eq_of_notLetter c d h1 h2)

theorem lowerChar_idem (c : Char) : lowerChar (lowerChar c) = lowerChar c := by
  rw [char_eq_iff_toNat, lowerChar_toNat, lowerChar_toNat]
  split_ifs <;> omega

theorem pyLower_idem (l : List Char) : pyLower (pyLower l) = pyLower l := by
  unfold pyLower
  rw [List.map_map]
  exact List.map_congr_left (fun c _ => lowerChar_idem c)

theorem isPyWs_lowerChar (c : Char) : isPyWs (lowerChar c) = isPyWs c := by
  unfold isPyWs
  rw [decide_lowerChar_eq c ' ' (by decide) (by decide),
    decide_lowerChar_eq c '\t' (by decide) (by decide),
    decide_lowerChar_eq c '\n' (by decide) (by decide),
    decide_lowerChar_eq c '\r' (by decide) (by decide),
    decide_lowerChar_eq c '\x0b' (by decide) (by decide),
    decide_lowerChar_eq c '\x0c' (by decide) (by decide)]

theorem isAsciiAlpha_lowerChar (c : Char) :
    isAsciiAlpha (lowerChar c) = isAsciiAlpha c := by
  unfold isAsciiAlpha isAsciiUpperAlpha isAsciiLowerAlpha
  rw [Bool.eq_iff_iff]
  simp only [Bool.or_eq_true, Bool.and_eq_true, decide_eq_true_eq, lowerChar_toNat]
  split <;> omega

theorem isAsciiDigit_lowerChar (c : Char) :
    isAsciiDigit (lowerChar c) = isAsciiDigit c := by
  unfold isAsciiDigit
  rw [Bool.eq_iff_iff]
  simp only [Bool.and_eq_true, decide_eq_true_eq, lowerChar_toNat]
  split <;> omega

theorem isSchemeChar_lowerChar (c : Char) :
    isSchemeChar (lowerChar c) = isSchemeChar c := by
  unfold isSchemeChar
  rw [isAsciiAlpha_lowerChar, isAsciiDigit_lowerChar,
    decide_lowerChar_eq c '+' (by decide) (by decide),
    decide_lowerChar_eq c '-' (by decide) (by decide),
    decide_lowerChar_eq c '.' (by decide) (by decide)]

theorem isNetlocEnd_lowerChar (c : Char) :
    isNetlocEnd (lowerChar c) = isNetlocEnd c := by
  unfold isNetlocEnd
  rw [decide_lowerChar_eq c '/' (by decide) (by decide),
    decide_lowerChar_eq c '?' (by decide) (by decide),
    decide_lowerChar_eq c '#' (by decide) (by decide)]

/-! ## Strip / lower interaction -/

theorem dropWhile_dropWhile {α : Type} (p : α → Bool) (l : List α) :
    (l.dropWhile p).dropWhile p = l.dropWhile p := by
  induction l with
  | nil => rfl
  | cons a t ih =>
    by_cases hp : p a
    · simp [List.dropWhile_cons, hp, ih]
    · simp [List.dropWhile_cons, hp]

theorem dropWhile_eq_self_of_none {α : Type} (p : α → Bool) (l : List α)
    (h : ∀ c ∈ l, p c = false) : l.dropWhile p = l := by
  cases l with
  | nil => rfl
  | cons a t => simp [List.dropWhile_cons, h a (by simp)]

theorem pyStrip_eq_self_of_noWs {l : List Char} (h : NoWs l) : pyStrip l = l := by
  unfold pyStrip
  rw [dropWhile_eq_self_of_none _ _ h,
    dropWhile_eq_self_of_none _ _ (fun c hc => h c (List.mem_reverse.mp hc)),
    List.reverse_reverse]

theorem pyStrip_pyLower (l : List Char) :
    pyStrip (pyLower l) = pyLower (pyStrip l) := by
  have hcomp : isPyWs ∘ lowerChar = isPyWs := funext isPyWs_lowerChar
  unfold pyStrip pyLower
  rw [List.dropWhile_map, hcomp, ← List.map_reverse, List.dropWhile_map, hcomp,
    ← List.map_reverse]

theorem head_dropWhile_false {α : Type} (p : α → Bool) (l : List α) {a : α}
    {t : List α} (h : l.dropWhile p = a :: t) : p a = false := by
  induction l with
  | nil => simp at h
  | cons b s ih =>
    by_cases hb : p b
    · rw [List.dropWhile_cons, if_pos hb] at h
      exact ih h
    · rw [List.dropWhile_cons, if_neg hb] at h
      cases h
      simpa using hb

theorem pyStrip_eq_rdropWhile (l : List Char) :
    pyStrip l = List.rdropWhile isPyWs (l.dropWhile isPyWs) := rfl

theorem pyStrip_idem (l : List Char) : pyStrip (pyStrip l) = pyStrip l := by
  rw [pyStrip_eq_rdropWhile, pyStrip_eq_rdropWhile]
  have hX : (l.dropWhile isPyWs).dropWhile isPyWs = l.dropWhile isPyWs :=
    List.dropWhile_idempotent _ _
  have hm : ((l.dropWhile isPyWs).rdropWhile isPyWs).dropWhile isPyWs =
      (l.dropWhile isPyWs).rdropWhile isPyWs := by
    rcases hsh : (l.dropWhile isPyWs).rdropWhile isPyWs with - | ⟨a, t⟩
    · rfl
    · obtain ⟨s, hs⟩ := List.rdropWhile_prefix (p := isPyWs) (l := l.dropWhile isPyWs)
      rw [hsh] at hs
      have ha : isPyWs a = false := by
        have := hX
        rw [← hs, List.cons_append] at this
        exact head_dropWhile_false isPyWs _ this
      simp [List.dropWhile_cons, ha]
  rw [hm, List.rdropWhile_idempotent]

theorem filter_pyLower (p : Char → Bool) (hp : ∀ c, p (lowerChar c) = p c)
    (l : List Char) : (pyLower l).filter p = pyLower (l.filter p) := by
  unfold pyLower
  rw [List.filter_map, show p ∘ lowerChar = p from funext hp]

theorem takeWhile_pyLower (p : Char → Bool) (hp : ∀ c, p (lowerChar c) = p c)
    (l : List Char) : (pyLower l).takeWhile p = pyLower (l.takeWhile p) := by
  unfold pyLower
  rw [List.takeWhile_map, show p ∘ lowerChar = p from funext hp]

theorem dropWhile_pyLower (p : Char → Bool) (hp : ∀ c, p (lowerChar c) = p c)
    (l : List Char) : (pyLower l).dropWhile p = pyLower (l.dropWhile p) := by
  unfold pyLower
  rw [List.dropWhile_map, show p ∘ lowerChar = p from funext hp]

theorem all_pyLower (p : Char → Bool) (hp : ∀ c, p (lowerChar c) = p c)
    (l : List Char) : (pyLower l).all p = l.all p := by
  unfold pyLower
  rw [List.all_map, show p ∘ lowerChar = p from funext hp]

theorem contains_pyLower (a : Char) (h1 : a.toNat < 65 ∨ 90 < a.toNat)
    (h2 : a.toNat < 97 ∨ 122 < a.toNat) (l : List Char) :
    (pyLower l).contains a = l.contains a := by
  unfold pyLower
  induction l with
  | nil => rfl
  | cons c t ih =>
    simp only [List.map_cons, List.contains_cons, ih]
    congr 1
    rw [Bool.eq_iff_iff, beq_iff_eq, beq_iff_eq, eq_comm, eq_comm (a := a),
      lowerChar_eq_of_notLetter c a h1 h2]

/-! ## `urlsplit` commutes with ASCII lowering -/

theorem hpFil (c : Char) :
    (!(lowerChar c = '\t' || lowerChar c = '\r' || lowerChar c = '\n')) =
      (!(c = '\t' || c = '\r' || c = '\n')) := by
  rw [decide_lowerChar_eq c '\t' (by decide) (by decide),
    decide_lowerChar_eq c '\r' (by decide) (by decide),
    decide_lowerChar_eq c '\n' (by decide) (by decide)]

theorem hpNe (c x : Char) (h1 : x.toNat < 65 ∨ 90 < x.toNat)
    (h2 : x.toNat < 97 ∨ 122 < x.toNat) :
    (decide (lowerChar c ≠ x)) = decide (c ≠ x) := by
  simp only [ne_eq, decide_not]
  rw [decide_lowerChar_eq c x h1 h2]

theorem hpNotNetlocEnd (c : Char) : (!isNetlocEnd (lowerChar c)) = !isNetlocEnd c := by
  rw [isNetlocEnd_lowerChar]


theorem splitScheme_pyLower (l : List Char) :
    splitScheme (pyLower l) =
      ((splitScheme l).1, pyLower (splitScheme l).2) := by
  unfold splitScheme
  rw [takeWhile_pyLower _ (fun c => hpNe c ':' (by decide) (by decide)),
    dropWhile_pyLower _ (fun c => hpNe c ':' (by decide) (by decide))]
  have hlc : lowerChar ':' = ':' := by decide
  rcases hD : l.dropWhile (fun c => decide (c ≠ ':')) with - | ⟨d, rest⟩
  · simp only [hD, pyLower, List.map_nil]
  · have hd : d = ':' := by
      have := head_dropWhile_false _ _ hD
      simpa using this
    subst hd
    simp only [hD, pyLower, List.map_cons, hlc]
    rcases hpre : l.takeWhile (fun c => decide (c ≠ ':')) with - | ⟨c, cs⟩
    · simp [pyLower]
    · simp only [List.map_cons]
      have hcond : (isAsciiAlpha (lowerChar c) &&
          (lowerChar c :: List.map lowerChar cs).all isSchemeChar) =
          (isAsciiAlpha c && (c :: cs).all isSchemeChar) := by
        rw [isAsciiAlpha_lowerChar,
          show lowerChar c :: List.map lowerChar cs = pyLower (c :: cs) from rfl,
          all_pyLower _ isSchemeChar_lowerChar]
      rw [hcond]
      split_ifs
      · have hidem : (lowerChar (lowerChar c) :: List.map lowerChar (List.map lowerChar cs))
            = pyLower (pyLower (c :: cs)) := by simp [pyLower]
        rw [hidem, pyLower_idem]
        simp [pyLower]
      · simp [pyLower]

theorem splitFragment_pyLower (u : List Char) :
    splitFragment (pyLower u) =
      (pyLower (splitFragment u).1, pyLower (splitFragment u).2) := by
  unfold splitFragment
  rw [takeWhile_pyLower _ (fun c => hpNe c '#' (by decide) (by decide)),
    dropWhile_pyLower _ (fun c => hpNe c '#' (by decide) (by decide))]
  have hlc : lowerChar '#' = '#' := by decide
  rcases hD : u.dropWhile (fun c => decide (c ≠ '#')) with - | ⟨d, rest⟩
  · simp [pyLower]
  · have hd : d = '#' := by
      have := head_dropWhile_false _ _ hD
      simpa using this
    subst hd
    simp [pyLower, hlc]

theorem splitQuery_pyLower (u : List Char) :
    splitQuery (pyLower u) =
      (pyLower (splitQuery u).1, pyLower (splitQuery u).2) := by
  unfold splitQuery
  rw [takeWhile_pyLower _ (fun c => hpNe c '?' (by decide) (by decide)),
    dropWhile_pyLower _ (fun c => hpNe c '?' (by decide) (by decide))]
  have hlc : lowerChar '?' = '?' := by decide
  rcases hD : u.dropWhile (fun c => decide (c ≠ '?')) with - | ⟨d, rest⟩
  · simp [pyLower]
  · have hd : d = '?' := by
      have := head_dropWhile_false _ _ hD
      simpa using this
    subst hd
    simp [pyLower, hlc]

theorem pyLower_take (n : Nat) (l : List Char) :
    (pyLower l).take n = pyLower (l.take n) := by
  unfold pyLower
  rw [List.map_take]

theorem pyLower_drop (n : Nat) (l : List Char) :
    (pyLower l).drop n = pyLower (l.drop n) := by
  unfold pyLower
  rw [List.map_drop]

theorem pyLower_eq_slashes_iff (u : List Char) :
    pyLower u = ['/', '/'] ↔ u = ['/', '/'] := by
  unfold pyLower
  rcases u with - | ⟨a, - | ⟨b, - | ⟨c, t⟩⟩⟩ <;> simp_all
  constructor
  · rintro ⟨ha, hb⟩
    exact ⟨(lowerChar_eq_of_notLetter a '/' (by decide) (by decide)).mp ha,
      (lowerChar_eq_of_notLetter b '/' (by decide) (by decide)).mp hb⟩
  · rintro ⟨rfl, rfl⟩
    exact ⟨by decide, by decide⟩





theorem pyUrlsplit_pyLower (l : List Char) :
    pyUrlsplit (pyLower l) = (pyUrlsplit l).map lowerParts := by
  have htw : ∀ u : List Char, (pyLower u).takeWhile (fun c => !isNetlocEnd c) =
      pyLower (u.takeWhile (fun c => !isNetlocEnd c)) :=
    takeWhile_pyLower _ (fun c => hpNotNetlocEnd c)
  have hdw : ∀ u : List Char, (pyLower u).dropWhile (fun c => !isNetlocEnd c) =
      pyLower (u.dropWhile (fun c => !isNetlocEnd c)) :=
    dropWhile_pyLower _ (fun c => hpNotNetlocEnd c)
  unfold pyUrlsplit
  dsimp only
  rw [filter_pyLower _ hpFil, splitScheme_pyLower]
  dsimp only
  simp only [pyLower_take, pyLower_eq_slashes_iff, pyLower_drop, htw, hdw,
    contains_pyLower '[' (by decide) (by decide),
    contains_pyLower ']' (by decide) (by decide),
    splitFragment_pyLower, splitQuery_pyLower]
  split_ifs <;> simp [lowerParts, pyLower]

/-! ## UTF-8 and percent-escape round-trip lemmas -/

theorem char_valid_ranges (c : Char) :
    c.toNat < 55296 ∨ (57343 < c.toNat ∧ c.toNat < 1114112) := by
  have h := c.valid
  unfold UInt32.isValidChar Nat.isValidChar at h
  exact h

theorem char_toNat_ofNat_valid {n : Nat}
    (h : n < 55296 ∨ (57343 < n ∧ n < 1114112)) : (Char.ofNat n).toNat = n := by
  unfold Char.ofNat
  rw [dif_pos h]
  simp [Char.ofNatAux, Char.toNat, UInt32.toNat, UInt32.ofNat']

theorem char_ofNat_toNat (c : Char) : Char.ofNat c.toNat = c := by
  rw [char_eq_iff_toNat, char_toNat_ofNat_valid (char_valid_ranges c)]

theorem toHexUpper_toNat {n : Nat} (h : n < 16) :
    (toHexUpper n).toNat = if n < 10 then 48 + n else 55 + n := by
  unfold toHexUpper
  have h0 : '0'.toNat = 48 := by decide
  have hA : 'A'.toNat = 65 := by decide
  split
  · rw [h0, char_toNat_ofNat_of_lt (by omega)]
  · rw [hA, char_toNat_ofNat_of_lt (by omega)]
    omega

theorem hexDigitVal_toHexUpper {n : Nat} (h : n < 16) :
    hexDigitVal (toHexUpper n) = some n := by
  unfold hexDigitVal
  rw [toHexUpper_toNat h]
  split_ifs <;> (try omega) <;> simp_all <;> omega

theorem utf8Bytes_lt (c : Char) : ∀ b ∈ utf8Bytes c, b < 256 := by
  unfold utf8Bytes
  have := char_valid_ranges c
  dsimp only
  split_ifs <;> (intro b hb; simp_all; omega)

theorem pyLower_eq_nil_iff (l : List Char) : pyLower l = [] ↔ l = [] := by
  simp [pyLower]

theorem canonList_of_fallback (raw : List Char) (hne : raw ≠ [])
    (hstr : pyStrip raw = raw)
    (hfb : pyUrlsplit raw = none ∨
      ∃ parts, pyUrlsplit raw = some parts ∧ (parts.scheme = [] ∨ parts.netloc = [])) :
    canonList (pyLower raw) = pyLower raw := by
  unfold canonList
  dsimp only
  rw [pyStrip_pyLower, hstr,
    if_neg (by simpa [pyLower_eq_nil_iff] using hne), pyUrlsplit_pyLower]
  rcases hfb with h | ⟨parts, h, hsn⟩
  · rw [h]
    exact pyLower_idem raw
  · rw [h]
    simp only [Option.map_some']
    rw [if_pos (by simpa [lowerParts, pyLower_eq_nil_iff] using hsn)]
    exact pyLower_idem raw

theorem utf8DecodeReplace_encode (c : Char) (bs : List Nat) :
    utf8DecodeReplace (utf8Bytes c ++ bs) = c :: utf8DecodeReplace bs := by
  have hv := char_valid_ranges c
  unfold utf8Bytes
  dsimp only
  by_cases h1 : c.toNat < 128
  · rw [if_pos h1]
    simp only [List.cons_append, List.nil_append]
    conv_lhs => rw [utf8DecodeReplace.eq_def]
    dsimp only
    rw [if_pos h1, char_ofNat_toNat]
  · rw [if_neg h1]
    by_cases h2 : c.toNat < 2048
    · rw [if_pos h2]
      simp only [List.cons_append, List.nil_append]
      conv_lhs => rw [utf8DecodeReplace.eq_def]
      dsimp only
      rw [if_neg (by omega),
        if_pos (show (decide (194 ≤ 192 + c.toNat / 64) && decide (192 + c.toNat / 64 ≤ 223)) = true by
          simp only [Bool.and_eq_true, decide_eq_true_eq]; omega),
        if_pos (show isContByte (128 + c.toNat % 64) = true by
          simp only [isContByte, Bool.and_eq_true, decide_eq_true_eq]; omega)]
      have hval : (192 + c.toNat / 64 - 192) * 64 + (128 + c.toNat % 64 - 128)
          = c.toNat := by omega
      rw [hval, char_ofNat_toNat]
    · rw [if_neg h2]
      by_cases h3 : c.toNat < 65536
      · rw [if_pos h3]
        simp only [List.cons_append, List.nil_append]
        conv_lhs => rw [utf8DecodeReplace.eq_def]
        dsimp only
        rw [if_neg (by omega),
          if_neg (show ¬(decide (194 ≤ 224 + c.toNat / 4096) && decide (224 + c.toNat / 4096 ≤ 223)) = true by
            simp only [Bool.and_eq_true, decide_eq_true_eq]; omega),
          if_pos (show (decide (224 ≤ 224 + c.toNat / 4096) && decide (224 + c.toNat / 4096 ≤ 239)) = true by
            simp only [Bool.and_eq_true, decide_eq_true_eq]; omega),
          if_pos (by
            simp only [isContByte, Bool.and_eq_true, Bool.or_eq_true, decide_eq_true_eq]
            constructor
            · omega
            · omega)]
        have hval : (224 + c.toNat / 4096 - 224) * 4096 +
            (128 + c.toNat / 64 % 64 - 128) * 64 + (128 + c.toNat % 64 - 128)
            = c.toNat := by omega
        rw [hval, char_ofNat_toNat]
      · rw [if_neg h3]
        simp only [List.cons_append, List.nil_append]
        conv_lhs => rw [utf8DecodeReplace.eq_def]
        dsimp only
        rw [if_neg (by omega),
          if_neg (show ¬(decide (194 ≤ 240 + c.toNat / 262144) && decide (240 + c.toNat / 262144 ≤ 223)) = true by
            simp only [Bool.and_eq_true, decide_eq_true_eq]; omega),
          if_neg (show ¬(decide (224 ≤ 240 + c.toNat / 262144) && decide (240 + c.toNat / 262144 ≤ 239)) = true by
            simp only [Bool.and_eq_true, decide_eq_true_eq]; omega),
          if_pos (by
            simp only [isContByte, Bool.and_eq_true, Bool.or_eq_true, decide_eq_true_eq]
            refine ⟨⟨?_, by omega⟩, by omega⟩
            omega)]
        have hval : (240 + c.toNat / 262144 - 240) * 262144 +
            (128 + c.toNat / 4096 % 64 - 128) * 4096 +
            (128 + c.toNat / 64 % 64 - 128) * 64 + (128 + c.toNat % 64 - 128)
            = c.toNat := by omega
        rw [hval, char_ofNat_toNat]

theorem utf8DecodeReplace_flatMap (cs : List Char) (bs : List Nat) :
    utf8DecodeReplace (cs.flatMap utf8Bytes ++ bs) = cs ++ utf8DecodeReplace bs := by
  induction cs generalizing bs with
  | nil => simp
  | cons c t ih =>
    simp only [List.flatMap_cons, List.append_assoc, List.cons_append]
    rw [utf8DecodeReplace_encode, ih]

theorem utf8DecodeReplace_flat (cs : List Char) :
    utf8DecodeReplace (cs.flatMap utf8Bytes) = cs := by
  have h0 : utf8DecodeReplace [] = [] := rfl
  have h := utf8DecodeReplace_flatMap cs []
  simp only [h0, List.append_nil] at h
  exact h

theorem pctDecodeAux_lit (acc : List Nat) (c : Char) (rest : List Char)
    (hc : c ≠ '%') :
    pctDecodeAux acc (c :: rest) = utf8DecodeReplace acc ++ c :: pctDecodeAux [] rest := by
  cases rest with
  | nil => rw [pctDecodeAux.eq_def]; simp [hc]
  | cons c1 r =>
    cases r with
    | nil => rw [pctDecodeAux.eq_def]; simp [hc]
    | cons c2 r2 => rw [pctDecodeAux.eq_def]; simp [hc]

theorem pctDecodeAux_esc (acc : List Nat) (b : Nat) (hb : b < 256) (rest : List Char) :
    pctDecodeAux acc ('%' :: toHexUpper (b / 16) :: toHexUpper (b % 16) :: rest) =
      pctDecodeAux (acc ++ [b]) rest := by
  rw [pctDecodeAux.eq_def]
  simp only [hexDigitVal_toHexUpper (show b / 16 < 16 by omega),
    hexDigitVal_toHexUpper (show b % 16 < 16 by omega)]
  have hval : 16 * (b / 16) + b % 16 = b := by omega
  rw [hval]

theorem pctDecodeAux_escBytes (bs : List Nat) (hb : ∀ b ∈ bs, b < 256)
    (acc : List Nat) (rest : List Char) :
    pctDecodeAux acc
        ((bs.flatMap (fun b => ['%', toHexUpper (b / 16), toHexUpper (b % 16)])) ++ rest) =
      pctDecodeAux (acc ++ bs) rest := by
  induction bs generalizing acc with
  | nil => simp
  | cons b t ih =>
    simp only [List.flatMap_cons, List.append_assoc, List.cons_append, List.nil_append]
    rw [pctDecodeAux_esc acc b (hb b (by simp)),
      ih (fun x hx => hb x (by simp [hx])) (acc ++ [b])]
    simp

theorem toHexUpper_ne_plus {m : Nat} (h : m < 16) : toHexUpper m ≠ '+' := by
  intro he
  have ht := toHexUpper_toNat h
  rw [he] at ht
  have : '+'.toNat = 43 := by decide
  rw [this] at ht
  revert ht
  split <;> omega

theorem plusToSpace_quotePlusChar_esc (c : Char) (hsafe : isUrlSafe c = false)
    (hsp : c ≠ ' ') (rest : List Char) :
    plusToSpace (quotePlusChar c ++ rest) =
      (utf8Bytes c).flatMap (fun b => ['%', toHexUpper (b / 16), toHexUpper (b % 16)]) ++
        plusToSpace rest := by
  unfold quotePlusChar
  rw [if_neg (by simp [hsafe]), if_neg hsp]
  unfold plusToSpace
  rw [List.map_append]
  congr 1
  rw [List.map_flatMap]
  apply List.flatMap_congr
  intro b hb
  have hblt := utf8Bytes_lt c b hb
  simp only [List.map_cons, List.map_nil]
  rw [if_neg (show ('%' : Char) ≠ '+' by decide),
    if_neg (toHexUpper_ne_plus (show b / 16 < 16 by omega)),
    if_neg (toHexUpper_ne_plus (show b % 16 < 16 by omega))]

theorem pctDecodeAux_quotePlus (k : List Char) (cs : List Char) :
    pctDecodeAux (cs.flatMap utf8Bytes) (plusToSpace (quotePlus k)) = cs ++ k := by
  induction k generalizing cs with
  | nil =>
    simp only [quotePlus, List.flatMap_nil, plusToSpace, List.map_nil, pctDecodeAux,
      List.append_nil]
    exact utf8DecodeReplace_flat cs
  | cons c t ih =>
    have ht : pctDecodeAux [] (plusToSpace (quotePlus t)) = t := by
      simpa using ih []
    by_cases hsafe : isUrlSafe c = true
    · have hcp : c ≠ '+' := by
        intro h; rw [h] at hsafe; exact absurd hsafe (by decide)
      have hcpct : c ≠ '%' := by
        intro h; rw [h] at hsafe; exact absurd hsafe (by decide)
      have hsplit : plusToSpace (quotePlus (c :: t)) = c :: plusToSpace (quotePlus t) := by
        simp [quotePlus, plusToSpace, quotePlusChar, hsafe, hcp]
      rw [hsplit, pctDecodeAux_lit _ c _ hcpct, utf8DecodeReplace_flat, ht]
    · by_cases hsp : c = ' '
      · subst hsp
        have hq : quotePlusChar ' ' = ['+'] := by decide
        have hsplit : plusToSpace (quotePlus (' ' :: t)) =
            ' ' :: plusToSpace (quotePlus t) := by
          simp [quotePlus, plusToSpace, hq]
        rw [hsplit, pctDecodeAux_lit _ ' ' _ (by decide), utf8DecodeReplace_flat, ht]
      · have hsafe' : isUrlSafe c = false := by
          cases h : isUrlSafe c
          · rfl
          · exact absurd h hsafe
        have hsplit : plusToSpace (quotePlus (c :: t)) =
            (utf8Bytes c).flatMap
              (fun b => ['%', toHexUpper (b / 16), toHexUpper (b % 16)]) ++
              plusToSpace (quotePlus t) := by
          have hq : quotePlus (c :: t) = quotePlusChar c ++ quotePlus t := by
            simp [quotePlus]
          rw [hq]
          exact plusToSpace_quotePlusChar_esc c hsafe' hsp _
        rw [hsplit, pctDecodeAux_escBytes (utf8Bytes c) (utf8Bytes_lt c)]
        have harr : cs.flatMap utf8Bytes ++ utf8Bytes c =
            (cs ++ [c]).flatMap utf8Bytes := by simp
        rw [harr, ih (cs ++ [c])]
        simp

theorem unquotePlus_quotePlus (k : List Char) : unquotePlus (quotePlus k) = k := by
  have := pctDecodeAux_quotePlus k []
  simpa [unquotePlus, pctDecode] using this

theorem ne_of_toNat_ne {a b : Char} (h : a.toNat ≠ b.toNat) : a ≠ b :=
  fun he => h (by rw [he])

theorem takeWhile_append_of_all {α : Type} (p : α → Bool) (xs ys : List α)
    (h : ∀ a ∈ xs, p a = true) :
    (xs ++ ys).takeWhile p = xs ++ ys.takeWhile p := by
  induction xs with
  | nil => simp
  | cons a t ih =>
    simp only [List.cons_append, List.takeWhile_cons]
    rw [if_pos (h a (by simp)), ih (fun b hb => h b (by simp [hb]))]

theorem dropWhile_append_of_all {α : Type} (p : α → Bool) (xs ys : List α)
    (h : ∀ a ∈ xs, p a = true) :
    (xs ++ ys).dropWhile p = ys.dropWhile p := by
  induction xs with
  | nil => simp
  | cons a t ih =>
    simp only [List.cons_append, List.dropWhile_cons]
    rw [if_pos (h a (by simp)), ih (fun b hb => h b (by simp [hb]))]

theorem mem_quotePlus_toNat {c : Char} {k : List Char} (h : c ∈ quotePlus k) :
    c.toNat = 43 ∨ c.toNat = 37 ∨ (48 ≤ c.toNat ∧ c.toNat ≤ 57) ∨
    (65 ≤ c.toNat ∧ c.toNat ≤ 90) ∨ (97 ≤ c.toNat ∧ c.toNat ≤ 122) ∨
    c.toNat = 95 ∨ c.toNat = 46 ∨ c.toNat = 45 ∨ c.toNat = 126 := by
  unfold quotePlus at h
  rw [List.mem_flatMap] at h
  obtain ⟨a, _, hmem⟩ := h
  unfold quotePlusChar at hmem
  split_ifs at hmem with hs hsp
  · simp only [List.mem_singleton] at hmem
    subst hmem
    unfold isUrlSafe isAsciiAlpha isAsciiUpperAlpha isAsciiLowerAlpha isAsciiDigit at hs
    have e1 : '_'.toNat = 95 := by decide
    have e2 : '.'.toNat = 46 := by decide
    have e3 : '-'.toNat = 45 := by decide
    have e4 : '~'.toNat = 126 := by decide
    simp only [Bool.or_eq_true, Bool.and_eq_true, decide_eq_true_eq,
      char_eq_iff_toNat, e1, e2, e3, e4] at hs
    omega
  · subst hsp
    simp only [List.mem_singleton] at hmem
    subst hmem
    exact Or.inl (by decide)
  · rw [List.mem_flatMap] at hmem
    obtain ⟨b, hb, hc⟩ := hmem
    have hblt := utf8Bytes_lt a b hb
    simp only [List.mem_cons, List.mem_singleton, List.not_mem_nil, or_false] at hc
    rcases hc with rfl | rfl | rfl
    · exact Or.inr (Or.inl (by decide))
    · rw [toHexUpper_toNat (show b / 16 < 16 by omega)]
      split_ifs <;> omega
    · rw [toHexUpper_toNat (show b % 16 < 16 by omega)]
      split_ifs <;> omega

theorem not_mem_quotePlus (x : Char)
    (hx : x.toNat = 38 ∨ x.toNat = 61 ∨ x.toNat = 63 ∨ x.toNat = 35 ∨
      x.toNat = 32 ∨ x.toNat = 9 ∨ x.toNat = 10 ∨ x.toNat = 13 ∨
      x.toNat = 11 ∨ x.toNat = 12 ∨ x.toNat = 47 ∨ x.toNat = 58)
    (k : List Char) : x ∉ quotePlus k := fun hm => by
  have := mem_quotePlus_toNat hm
  omega

theorem intercalate_sep_cons_cons (s x y : List Char) (xs : List (List Char)) :
    List.intercalate s (x :: y :: xs) = x ++ s ++ List.intercalate s (y :: xs) := by
  simp [List.intercalate, List.intersperse]

theorem intercalate_singleton (s x : List Char) : List.intercalate s [x] = x := by
  simp [List.intercalate]

theorem urlencodePairs_cons_cons (kv kv2 : List Char × List Char)
    (t : List (List Char × List Char)) :
    urlencodePairs (kv :: kv2 :: t) =
      (quotePlus kv.1 ++ '=' :: quotePlus kv.2) ++ '&' :: urlencodePairs (kv2 :: t) := by
  unfold urlencodePairs
  rw [List.map_cons, List.map_cons, intercalate_sep_cons_cons]
  simp [List.append_assoc]

theorem mem_urlencodePairs_toNat {c : Char} {ps : List (List Char × List Char)}
    (h : c ∈ urlencodePairs ps) :
    c.toNat = 38 ∨ c.toNat = 61 ∨
    (c.toNat = 43 ∨ c.toNat = 37 ∨ (48 ≤ c.toNat ∧ c.toNat ≤ 57) ∨
     (65 ≤ c.toNat ∧ c.toNat ≤ 90) ∨ (97 ≤ c.toNat ∧ c.toNat ≤ 122) ∨
     c.toNat = 95 ∨ c.toNat = 46 ∨ c.toNat = 45 ∨ c.toNat = 126) := by
  induction ps with
  | nil => simp [urlencodePairs, List.intercalate] at h
  | cons kv t ih =>
    cases t with
    | nil =>
      unfold urlencodePairs at h
      rw [List.map_cons, List.map_nil, intercalate_singleton] at h
      rcases List.mem_append.mp h with hm | hm
      · exact Or.inr (Or.inr (mem_quotePlus_toNat hm))
      · rcases List.mem_cons.mp hm with rfl | hm
        · exact Or.inr (Or.inl (by decide))
        · exact Or.inr (Or.inr (mem_quotePlus_toNat hm))
    | cons kv2 t2 =>
      rw [urlencodePairs_cons_cons] at h
      rcases List.mem_append.mp h with hm | hm
      · rcases List.mem_append.mp hm with hm | hm
        · exact Or.inr (Or.inr (mem_quotePlus_toNat hm))
        · rcases List.mem_cons.mp hm with rfl | hm
          · exact Or.inr (Or.inl (by decide))
          · exact Or.inr (Or.inr (mem_quotePlus_toNat hm))
      · rcases List.mem_cons.mp hm with rfl | hm
        · exact Or.inl (by decide)
        · exact ih hm

theorem splitOnChar_of_not_mem {sep : Char} {l : List Char} (h : sep ∉ l) :
    splitOnChar sep l = [l] := by
  induction l with
  | nil => rfl
  | cons c r ih =>
    have hc : ¬ c = sep := by rintro rfl; exact h (by simp)
    unfold splitOnChar
    rw [if_neg hc, ih (fun hm => h (by simp [hm]))]

theorem splitOnChar_append_sep {sep : Char} {x : List Char} (hx : sep ∉ x)
    (r : List Char) :
    splitOnChar sep (x ++ sep :: r) = x :: splitOnChar sep r := by
  induction x with
  | nil => simp [splitOnChar]
  | cons c t ih =>
    have hc : ¬ c = sep := by rintro rfl; exact hx (by simp)
    simp only [List.cons_append]
    conv_lhs => rw [splitOnChar.eq_def]
    dsimp only
    rw [if_neg hc, ih (fun hm => hx (by simp [hm]))]

theorem splitOnChar_intercalate {sep : Char} (items : List (List Char))
    (hne : items ≠ []) (h : ∀ i ∈ items, sep ∉ i) :
    splitOnChar sep (List.intercalate [sep] items) = items := by
  induction items with
  | nil => exact absurd rfl hne
  | cons x t ih =>
    cases t with
    | nil => rw [intercalate_singleton]; exact splitOnChar_of_not_mem (h x (by simp))
    | cons y t2 =>
      rw [intercalate_sep_cons_cons, List.append_assoc, List.singleton_append,
        splitOnChar_append_sep (h x (by simp)),
        ih (by simp) (fun i hi => h i (by simp [hi]))]

theorem filterMap_eq_self_of_some {α : Type} (f : α → Option α) (l : List α)
    (h : ∀ a ∈ l, f a = some a) : l.filterMap f = l := by
  induction l with
  | nil => rfl
  | cons a t ih =>
    rw [List.filterMap_cons, h a (by simp), ih (fun b hb => h b (by simp [hb]))]

theorem mem_item_ne_amp {q : List Char × List Char} :
    '&' ∉ quotePlus q.1 ++ '=' :: quotePlus q.2 := by
  intro hm
  rcases List.mem_append.mp hm with hm | hm
  · exact not_mem_quotePlus '&' (Or.inl (by decide)) _ hm
  · rcases List.mem_cons.mp hm with he | hm
    · exact absurd he (by decide)
    · exact not_mem_quotePlus '&' (Or.inl (by decide)) _ hm

theorem parseQsl_item (q : List Char × List Char) :
    (if (quotePlus q.1 ++ '=' :: quotePlus q.2 : List Char) = [] then none
     else
       let n := (quotePlus q.1 ++ '=' :: quotePlus q.2).takeWhile (fun c => c ≠ '=')
       match (quotePlus q.1 ++ '=' :: quotePlus q.2).dropWhile (fun c => c ≠ '=') with
       | '=' :: v => some (unquotePlus n, unquotePlus v)
       | _ => some (unquotePlus (quotePlus q.1 ++ '=' :: quotePlus q.2), [])) = some q := by
  have hne : (quotePlus q.1 ++ '=' :: quotePlus q.2 : List Char) ≠ [] := by simp
  rw [if_neg hne]
  have hall : ∀ c ∈ quotePlus q.1, (decide (c ≠ '=')) = true := by
    intro c hc
    have := mem_quotePlus_toNat hc
    simp only [ne_eq, decide_not, Bool.not_eq_eq_eq_not, Bool.not_true,
      decide_eq_false_iff_not]
    have h61 : '='.toNat = 61 := by decide
    refine ne_of_toNat_ne ?_
    rw [h61]
    omega
  have htake : (quotePlus q.1 ++ '=' :: quotePlus q.2).takeWhile (fun c => decide (c ≠ '=')) =
      quotePlus q.1 := by
    rw [takeWhile_append_of_all _ _ _ hall, List.takeWhile_cons]
    simp
  have hdrop : (quotePlus q.1 ++ '=' :: quotePlus q.2).dropWhile (fun c => decide (c ≠ '=')) =
      '=' :: quotePlus q.2 := by
    rw [dropWhile_append_of_all _ _ _ hall, List.dropWhile_cons]
    simp
  rw [htake, hdrop]
  simp [unquotePlus_quotePlus]

theorem parseQsl_urlencodePairs (ps : List (List Char × List Char)) :
    parseQsl (urlencodePairs ps) = ps := by
  cases ps with
  | nil => simp [urlencodePairs, parseQsl, List.intercalate]
  | cons kv t =>
    have hne0 : urlencodePairs (kv :: t) ≠ [] := by
      cases t with
      | nil =>
        unfold urlencodePairs
        rw [List.map_cons, List.map_nil, intercalate_singleton]
        simp
      | cons kv2 t2 =>
        rw [urlencodePairs_cons_cons]
        simp
    unfold parseQsl
    rw [if_neg hne0]
    rw [show urlencodePairs (kv :: t) =
      List.intercalate ['&'] ((kv :: t).map
        (fun kv => quotePlus kv.1 ++ '=' :: quotePlus kv.2)) from rfl]
    rw [splitOnChar_intercalate _ (by simp)
      (by
        intro i hi
        rw [List.mem_map] at hi
        obtain ⟨q, -, rfl⟩ := hi
        exact mem_item_ne_amp),
      List.filterMap_map]
    apply filterMap_eq_self_of_some
    intro q hq
    exact parseQsl_item q

theorem listCharLe_total (x y : List Char) :
    listCharLe x y = true ∨ listCharLe y x = true := by
  induction x generalizing y with
  | nil => left; rfl
  | cons a t ih =>
    cases y with
    | nil => right; rfl
    | cons b s =>
      unfold listCharLe
      rcases Nat.lt_trichotomy a.toNat b.toNat with h | h | h
      · left; rw [if_pos h]
      · rw [if_neg (by omega), if_neg (by omega), if_neg (by omega), if_neg (by omega)]
        exact ih s
      · right; rw [if_pos h]

theorem listCharLe_trans {x y z : List Char} (h1 : listCharLe x y = true)
    (h2 : listCharLe y z = true) : listCharLe x z = true := by
  induction x generalizing y z with
  | nil => rfl
  | cons a t ih =>
    cases y with
    | nil => simp [listCharLe] at h1
    | cons b s =>
      cases z with
      | nil => simp [listCharLe] at h2
      | cons c r =>
        unfold listCharLe at h1 h2 ⊢
        split_ifs at h1 h2 ⊢ <;> first
          | rfl
          | omega
          | (exact ih h1 h2)

theorem listCharLe_antisymm {x y : List Char} (h1 : listCharLe x y = true)
    (h2 : listCharLe y x = true) : x = y := by
  induction x generalizing y with
  | nil =>
    cases y with
    | nil => rfl
    | cons b s => simp [listCharLe] at h2
  | cons a t ih =>
    cases y with
    | nil => simp [listCharLe] at h1
    | cons b s =>
      unfold listCharLe at h1 h2
      rcases Nat.lt_trichotomy a.toNat b.toNat with h | h | h
      · rw [if_neg (by omega), if_pos h] at h2
        exact absurd h2 (by simp)
      · rw [if_neg (by omega), if_neg (by omega)] at h1 h2
        have hab : a = b := by rw [char_eq_iff_toNat]; omega
        rw [hab, ih h1 h2]
      · rw [if_neg (by omega), if_pos h] at h1
        exact absurd h1 (by simp)

theorem pairLe_total (a b : List Char × List Char) :
    pairLeRel a b ∨ pairLeRel b a := by
  unfold pairLeRel pairLe
  by_cases h : a.1 = b.1
  · rw [if_pos h, if_pos h.symm]
    exact listCharLe_total a.2 b.2
  · rw [if_neg h, if_neg (fun he => h he.symm)]
    exact listCharLe_total a.1 b.1

theorem pairLe_trans {a b c : List Char × List Char} (h1 : pairLeRel a b)
    (h2 : pairLeRel b c) : pairLeRel a c := by
  unfold pairLeRel pairLe at h1 h2 ⊢
  by_cases hab : a.1 = b.1 <;> by_cases hbc : b.1 = c.1
  · rw [if_pos hab] at h1
    rw [if_pos hbc] at h2
    rw [if_pos (hab.trans hbc)]
    exact listCharLe_trans h1 h2
  · rw [if_neg (by rw [hab]; exact hbc)]
    rw [if_neg hbc] at h2
    rw [hab]
    exact h2
  · rw [if_neg (by rw [← hbc]; exact hab)]
    rw [if_neg hab] at h1
    rw [← hbc]
    exact h1
  · rw [if_neg hab] at h1
    rw [if_neg hbc] at h2
    have hac := listCharLe_trans h1 h2
    by_cases h : a.1 = c.1
    · exfalso
      rw [h] at h1
      exact hbc (listCharLe_antisymm h2 h1)
    · rw [if_neg h]
      exact hac

theorem pairLe_antisymm {a b : List Char × List Char} (h1 : pairLeRel a b)
    (h2 : pairLeRel b a) : a = b := by
  unfold pairLeRel pairLe at h1 h2
  by_cases hab : a.1 = b.1
  · rw [if_pos hab] at h1
    rw [if_pos hab.symm] at h2
    have := listCharLe_antisymm h1 h2
    exact Prod.ext hab this
  · rw [if_neg hab] at h1
    rw [if_neg (fun he => hab he.symm)] at h2
    exact absurd (listCharLe_antisymm h1 h2) hab

theorem insertionSort_sorted_pairLe (l : List (List Char × List Char)) :
    List.Sorted pairLeRel (List.insertionSort pairLeRel l) :=
  @List.sorted_insertionSort _ pairLeRel _
    ⟨pairLe_total⟩ ⟨fun _ _ _ => pairLe_trans⟩ l

theorem insertionSort_perm_eq {l l' : List (List Char × List Char)}
    (hp : l.Perm l') :
    List.insertionSort pairLeRel l = List.insertionSort pairLeRel l' :=
  @List.eq_of_perm_of_sorted _ pairLeRel ⟨fun _ _ => pairLe_antisymm⟩ _ _
    (((List.perm_insertionSort pairLeRel l).trans hp).trans
      (List.perm_insertionSort pairLeRel l').symm)
    (insertionSort_sorted_pairLe l) (insertionSort_sorted_pairLe l')

theorem encodeQuery_eq_of_perm {q1 q2 : List Char}
    (hp : (filterTracking (parseQsl q1)).Perm (filterTracking (parseQsl q2))) :
    encodeQuery q1 = encodeQuery q2 := by
  unfold encodeQuery
  rw [insertionSort_perm_eq hp]

theorem encodeQuery_idem (q : List Char) :
    encodeQuery (encodeQuery q) = encodeQuery q := by
  conv_lhs => unfold encodeQuery
  rw [parseQsl_urlencodePairs]
  have hfil : filterTracking
      (List.insertionSort pairLeRel (filterTracking (parseQsl q))) =
      List.insertionSort pairLeRel (filterTracking (parseQsl q)) := by
    unfold filterTracking
    rw [List.filter_eq_self]
    intro kv hkv
    have hmem : kv ∈ filterTracking (parseQsl q) :=
      (List.perm_insertionSort pairLeRel _).mem_iff.mp hkv
    unfold filterTracking at hmem
    exact (List.mem_filter.mp hmem).2
  rw [hfil]
  have hsorted := insertionSort_sorted_pairLe (filterTracking (parseQsl q))
  rw [hsorted.insertionSort_eq]
  rfl

theorem collapseSlashes_ne_nil {l : List Char} (h : l ≠ []) :
    collapseSlashes l ≠ [] := by
  induction l with
  | nil => exact absurd rfl h
  | cons a t ih =>
    cases t with
    | nil => simp [collapseSlashes]
    | cons b r =>
      unfold collapseSlashes
      split_ifs
      · exact ih (by simp)
      · simp

theorem head?_collapseSlashes (l : List Char) :
    (collapseSlashes l).head? = l.head? := by
  induction l with
  | nil => rfl
  | cons a t ih =>
    cases t with
    | nil => rfl
    | cons b r =>
      unfold collapseSlashes
      split_ifs with h
      · rw [ih]
        simp [h.1, h.2]
      · rfl

theorem getLast?_collapseSlashes (l : List Char) :
    (collapseSlashes l).getLast? = l.getLast? := by
  induction l with
  | nil => rfl
  | cons a t ih =>
    cases t with
    | nil => rfl
    | cons b r =>
      unfold collapseSlashes
      split_ifs with h
      · rw [ih, List.getLast?_cons_cons]
      · rcases hc : collapseSlashes (b :: r) with - | ⟨c, s⟩
        · exact absurd hc (collapseSlashes_ne_nil (by simp))
        · rw [List.getLast?_cons_cons, ← hc, ih, List.getLast?_cons_cons]

theorem mem_collapseSlashes {c : Char} {l : List Char}
    (h : c ∈ collapseSlashes l) : c ∈ l := by
  induction l with
  | nil => exact absurd h (by simp [collapseSlashes])
  | cons a t ih =>
    cases t with
    | nil => exact h
    | cons b r =>
      unfold collapseSlashes at h
      split_ifs at h
      · exact List.mem_cons_of_mem a (ih h)
      · rcases List.mem_cons.mp h with rfl | h
        · exact List.mem_cons_self c _
        · exact List.mem_cons_of_mem a (ih h)

theorem chain'_collapseSlashes (l : List Char) :
    List.Chain' (fun a b => ¬(a = '/' ∧ b = '/')) (collapseSlashes l) := by
  induction l with
  | nil => simp [collapseSlashes]
  | cons a t ih =>
    cases t with
    | nil => simp [collapseSlashes]
    | cons b r =>
      unfold collapseSlashes
      split_ifs with h
      · exact ih
      · rw [List.chain'_cons']
      
        refine ⟨?_, ih⟩
        intro y hy
        rw [head?_collapseSlashes] at hy
        simp only [List.head?_cons, Option.mem_def, Option.some.injEq] at hy
        subst hy
        exact h
      

theorem collapseSlashes_eq_self {l : List Char}
    (h : List.Chain' (fun a b => ¬(a = '/' ∧ b = '/')) l) :
    collapseSlashes l = l := by
  induction l with
  | nil => rfl
  | cons a t ih =>
    cases t with
    | nil => rfl
    | cons b r =>
      rw [List.chain'_cons'] at h
      have hab : ¬(a = '/' ∧ b = '/') := h.1 b (by simp)
      unfold collapseSlashes
      rw [if_neg hab, ih h.2]

theorem normPath_ne_nil (p : List Char) : normPath p ≠ [] := by
  unfold normPath
  dsimp only
  set p0 := if p = [] then ['/'] else p with hp0
  have hp0ne : p0 ≠ [] := by
    rw [hp0]; split_ifs with h <;> simp [h]
  set p1 := collapseSlashes p0 with hp1
  have hp1ne : p1 ≠ [] := collapseSlashes_ne_nil hp0ne
  split_ifs with hcond
  · rcases hc : p1 with - | ⟨c, s⟩
    · exact absurd hc hp1ne
    · cases s with
      | nil =>
        rcases hcond with ⟨hne, hlast⟩
        rw [hc] at hne hlast
        simp only [List.getLast?_singleton, Option.some.injEq] at hlast
        subst hlast
        exact absurd rfl hne
      | cons d u => simp
  · exact hp1ne

theorem chain'_normPath (p : List Char) :
    List.Chain' (fun a b => ¬(a = '/' ∧ b = '/')) (normPath p) := by
  unfold normPath
  dsimp only
  set p0 := if p = [] then ['/'] else p with hp0
  have hall := chain'_collapseSlashes p0
  have hdp := List.dropLast_prefix (collapseSlashes p0)
  split_ifs <;> first
    | exact List.Chain'.prefix hall hdp
    | exact hall

theorem normPath_cond_false (p : List Char) :
    ¬(normPath p ≠ ['/'] ∧ (normPath p).getLast? = some '/') := by
  unfold normPath
  dsimp only
  set p0 := if p = [] then ['/'] else p with hp0
  have hp0ne : p0 ≠ [] := by
    rw [hp0]; split_ifs with h <;> simp [h]
  set p1 := collapseSlashes p0 with hp1
  split_ifs with hcond
  · rintro ⟨-, hlast⟩
    rcases hcond with ⟨hne, hl1⟩
    obtain ⟨init, hinit⟩ := List.getLast?_eq_some_iff.mp hl1
    rw [hinit, List.dropLast_concat] at hlast
    have hinitne : init ≠ [] := by
      rintro rfl
      rw [hinit] at hne
      exact hne (by simp)
    obtain ⟨z, hz⟩ := List.getLast?_eq_some_iff.mp hlast
    have hch : List.Chain' (fun a b => ¬(a = '/' ∧ b = '/')) p1 := by
      rw [hp1]; exact chain'_collapseSlashes p0
    rw [hinit, List.chain'_append] at hch
    have := hch.2.2 '/' (by simp [hlast]) '/' (by simp)
    exact this ⟨rfl, rfl⟩
  · exact hcond

theorem normPath_idem (p : List Char) : normPath (normPath p) = normPath p := by
  conv_lhs => rw [normPath.eq_def]
  dsimp only
  rw [if_neg (normPath_ne_nil p), collapseSlashes_eq_self (chain'_normPath p),
    if_neg (normPath_cond_false p)]

theorem head?_dropLast_ne_nil {α : Type} {l : List α} (h : l.dropLast ≠ []) :
    l.dropLast.head? = l.head? := by
  cases l with
  | nil => simp at h
  | cons a t =>
    cases t with
    | nil => simp at h
    | cons b u => simp

theorem head?_normPath {p : List Char} (hp : p = [] ∨ p.head? = some '/') :
    (normPath p).head? = some '/' := by
  unfold normPath
  dsimp only
  set p0 := if p = [] then ['/'] else p with hp0
  have hh0 : p0.head? = some '/' := by
    rw [hp0]
    rcases hp with rfl | hp
    · simp
    · rw [if_neg (by rintro rfl; simp at hp)]
      exact hp
  set p1 := collapseSlashes p0 with hp1
  have hh1 : p1.head? = some '/' := by
    rw [hp1, head?_collapseSlashes]
    exact hh0
  split_ifs with hcond
  · rw [head?_dropLast_ne_nil, hh1]
    rcases hcond with ⟨hne, hl1⟩
    obtain ⟨init, hinit⟩ := List.getLast?_eq_some_iff.mp hl1
    rw [hinit, List.dropLast_concat]
    rintro rfl
    rw [hinit] at hne
    exact hne (by simp)
  · exact hh1

theorem mem_normPath {c : Char} {p : List Char} (h : c ∈ normPath p) :
    c ∈ p ∨ c = '/' := by
  unfold normPath at h
  dsimp only at h
  set p0 := if p = [] then ['/'] else p with hp0
  set p1 := collapseSlashes p0 with hp1
  have hmem : c ∈ p1 := by
    split_ifs at h
    · exact (List.dropLast_sublist _).subset h
    · exact h
  have h0 : c ∈ p0 := by
    rw [hp1] at hmem
    exact mem_collapseSlashes hmem
  rw [hp0] at h0
  split_ifs at h0 with hcase
  · right
    simpa using h0
  · left
    exact h0

theorem collapseSlashes_append_slash_of_last_slash {x : List Char} (hx : x ≠ [])
    (hl : x.getLast? = some '/') :
    collapseSlashes (x ++ ['/']) = collapseSlashes x := by
  induction x with
  | nil => exact absurd rfl hx
  | cons a t ih =>
    cases t with
    | nil =>
      simp only [List.getLast?_singleton, Option.some.injEq] at hl
      subst hl
      rfl
    | cons b r =>
      rw [List.getLast?_cons_cons] at hl
      simp only [List.cons_append]
      conv_lhs => rw [collapseSlashes.eq_def]
      conv_rhs => rw [collapseSlashes.eq_def]
      dsimp only
      split_ifs with hg
      · have := ih (by simp) hl
        simpa [List.cons_append] using this
      · have := ih (by simp) hl
        rw [List.cons_append] at this
        rw [this]

theorem collapseSlashes_append_slash_of_last_ne {x : List Char} (hx : x ≠ [])
    (hl : x.getLast? ≠ some '/') :
    collapseSlashes (x ++ ['/']) = collapseSlashes x ++ ['/'] := by
  induction x with
  | nil => exact absurd rfl hx
  | cons a t ih =>
    cases t with
    | nil =>
      have ha : a ≠ '/' := by
        simpa using hl
      simp only [List.cons_append, List.nil_append]
      conv_lhs => rw [collapseSlashes.eq_def]
      dsimp only
      rw [if_neg (by rintro ⟨rfl, -⟩; exact ha rfl)]
      rfl
    | cons b r =>
      rw [List.getLast?_cons_cons] at hl
      simp only [List.cons_append]
      conv_lhs => rw [collapseSlashes.eq_def]
      conv_rhs => rw [collapseSlashes.eq_def]
      dsimp only
      split_ifs with hg
      · have := ih (by simp) hl
        simpa [List.cons_append] using this
      · have := ih (by simp) hl
        rw [List.cons_append] at this
        rw [this]
        simp

theorem normPath_append_slash (x : List Char) :
    normPath (x ++ ['/']) = normPath x := by
  by_cases hx : x = []
  · subst hx
    decide
  · unfold normPath
    dsimp only
    rw [if_neg (show ¬(x ++ ['/'] = []) by simp), if_neg hx]
    by_cases hl : x.getLast? = some '/'
    · rw [collapseSlashes_append_slash_of_last_slash hx hl]
    · rw [collapseSlashes_append_slash_of_last_ne hx hl]
      have hcne : collapseSlashes x ≠ [] := collapseSlashes_ne_nil hx
      have hlast1 : (collapseSlashes x ++ ['/']).getLast? = some '/' :=
        List.getLast?_concat _
      have hne1 : collapseSlashes x ++ ['/'] ≠ ['/'] := by
        intro he
        have hlen := congrArg List.length he
        simp only [List.length_append, List.length_singleton] at hlen
        exact hcne (List.length_eq_zero.mp (by omega))
      rw [if_pos ⟨hne1, hlast1⟩, List.dropLast_concat,
        if_neg (by
          rintro ⟨-, hlast⟩
          rw [getLast?_collapseSlashes] at hlast
          exact hl hlast)]

theorem isPyWs_eq_false_of_toNat {c : Char}
    (h : c.toNat ≠ 32 ∧ c.toNat ≠ 9 ∧ c.toNat ≠ 10 ∧ c.toNat ≠ 13 ∧
      c.toNat ≠ 11 ∧ c.toNat ≠ 12) : isPyWs c = false := by
  unfold isPyWs
  have e1 : ' '.toNat = 32 := by decide
  have e2 : '\t'.toNat = 9 := by decide
  have e3 : '\n'.toNat = 10 := by decide
  have e4 : '\r'.toNat = 13 := by decide
  have e5 : '\x0b'.toNat = 11 := by decide
  have e6 : '\x0c'.toNat = 12 := by decide
  simp only [Bool.or_eq_false_iff, decide_eq_false_iff_not]
  refine ⟨⟨⟨⟨⟨?_, ?_⟩, ?_⟩, ?_⟩, ?_⟩, ?_⟩ <;>
    (refine ne_of_toNat_ne ?_; omega)

theorem NoWs_mono {l1 l2 : List Char} (hsub : ∀ c, c ∈ l1 → c ∈ l2)
    (h : NoWs l2) : NoWs l1 := fun c hc => h c (hsub c hc)

theorem NoWs_append {l1 l2 : List Char} (h1 : NoWs l1) (h2 : NoWs l2) :
    NoWs (l1 ++ l2) := by
  intro c hc
  rcases List.mem_append.mp hc with hc | hc
  · exact h1 c hc
  · exact h2 c hc

theorem NoWs_cons {c : Char} {l : List Char} (hc : isPyWs c = false)
    (h : NoWs l) : NoWs (c :: l) := by
  intro d hd
  rcases List.mem_cons.mp hd with rfl | hd
  · exact hc
  · exact h d hd

theorem NoWs_pyLower {l : List Char} (h : NoWs l) : NoWs (pyLower l) := by
  intro c hc
  unfold pyLower at hc
  rw [List.mem_map] at hc
  obtain ⟨d, hd, rfl⟩ := hc
  rw [isPyWs_lowerChar]
  exact h d hd

theorem mem_wwwStrip {c : Char} {x : List Char} (h : c ∈ wwwStrip x) : c ∈ x := by
  unfold wwwStrip at h
  split_ifs at h
  · exact (List.drop_subset 4 x) h
  · exact h

theorem wwwStrip_decomp {x : List Char}
    (h : "www.".data.isPrefixOf x = true) :
    x = 'w' :: 'w' :: 'w' :: '.' :: x.drop 4 := by
  obtain ⟨t, ht⟩ := List.isPrefixOf_iff_prefix.mp h
  rw [← ht]
  rfl

theorem wwwStrip_contains {x : List Char} {a : Char}
    (ha : a ≠ 'w' ∧ a ≠ '.') :
    (wwwStrip x).contains a = x.contains a := by
  unfold wwwStrip
  split_ifs with h
  · conv_rhs => rw [wwwStrip_decomp h]
    simp [List.contains_cons, ha.1, ha.2]
  · rfl

theorem pyLower_wwwStrip_pyLower (x : List Char) :
    pyLower (wwwStrip (pyLower x)) = wwwStrip (pyLower x) := by
  unfold wwwStrip
  split_ifs
  · rw [pyLower_drop, pyLower_idem]
  · exact pyLower_idem x

theorem not_mem_pyLower_of_notLetter {x : Char} {l : List Char}
    (h1 : x.toNat < 65 ∨ 90 < x.toNat) (h2 : x.toNat < 97 ∨ 122 < x.toNat)
    (h : x ∉ l) : x ∉ pyLower l := by
  intro hm
  unfold pyLower at hm
  rw [List.mem_map] at hm
  obtain ⟨d, hd, hdx⟩ := hm
  rw [lowerChar_eq_of_notLetter d x h1 h2] at hdx
  exact h (hdx ▸ hd)

theorem NoWs_urlencodePairs (ps : List (List Char × List Char)) :
    NoWs (urlencodePairs ps) := by
  intro c hc
  have := mem_urlencodePairs_toNat hc
  exact isPyWs_eq_false_of_toNat (by omega)

theorem pyUrlunsplit_canonical_shape (sch n p q : List Char)
    (hs : sch ≠ []) (hn : n ≠ []) (hp : p.head? = some '/') :
    pyUrlunsplit sch n p q =
      sch ++ ':' :: '/' :: '/' :: (n ++ (p ++ (if q = [] then [] else '?' :: q))) := by
  unfold pyUrlunsplit
  dsimp only
  split_ifs <;> first
    | (exfalso; first
        | exact (show ¬(n ≠ [] ∨ p ≠ [] ∧ List.take 2 p = ['/', '/']) by assumption)
            (Or.inl hn)
        | exact (show p ≠ [] ∧ p.head? ≠ some '/' by assumption).2 hp
        | exact (show ¬sch ≠ [] by assumption) hs
        | tauto)
    | simp [List.append_assoc]

theorem tcrlf_pred_of_noWs {c : Char} (h : isPyWs c = false) :
    (!(c = '\t' || c = '\r' || c = '\n')) = true := by
  unfold isPyWs at h
  simp only [Bool.or_eq_false_iff, decide_eq_false_iff_not] at h
  simp [h.1.1.1.1.2, h.1.1.2, h.1.1.1.2]

theorem pyUrlsplit_canonical (sch n p q : List Char)
    (hs : ∃ c cs, sch = c :: cs ∧ isAsciiAlpha c = true)
    (hschars : sch.all isSchemeChar = true)
    (hscolon : ':' ∉ sch)
    (hslower : pyLower sch = sch)
    (hn : n ≠ [])
    (hnend : ∀ c ∈ n, isNetlocEnd c = false)
    (hnbr : n.contains '[' = n.contains ']')
    (hp : p.head? = some '/')
    (hphash : '#' ∉ p) (hpqm : '?' ∉ p)
    (hqchars : ∀ c ∈ q, c.toNat ≠ 35)
    (hws : NoWs (pyUrlunsplit sch n p q)) :
    pyUrlsplit (pyUrlunsplit sch n p q) = some ⟨sch, n, p, q, []⟩ := by
  obtain ⟨c0, cs0, hsch, halpha⟩ := hs
  have hsne : sch ≠ [] := by rw [hsch]; simp
  rw [pyUrlunsplit_canonical_shape sch n p q hsne hn hp] at hws ⊢
  obtain ⟨p', hpp⟩ : ∃ p', p = '/' :: p' := by
    cases p with
    | nil => simp at hp
    | cons a t =>
      simp only [List.head?_cons, Option.some.injEq] at hp
      exact ⟨t, by rw [hp]⟩
  set qtail := (if q = [] then [] else '?' :: q) with hqt
  have hqtail_chars : ∀ c ∈ qtail, c = '?' ∨ c ∈ q := by
    intro c hc
    rw [hqt] at hc
    split_ifs at hc with hqe
    · simp at hc
    · rcases List.mem_cons.mp hc with rfl | hc
      · exact Or.inl rfl
      · exact Or.inr hc
  unfold pyUrlsplit
  dsimp only
  rw [List.filter_eq_self.mpr (fun c hc => tcrlf_pred_of_noWs (hws c hc))]
  have hallsch : ∀ c ∈ sch, (decide (c ≠ ':')) = true := by
    intro c hc
    simp only [ne_eq, decide_not, Bool.not_eq_eq_eq_not, Bool.not_true,
      decide_eq_false_iff_not]
    rintro rfl
    exact hscolon hc
  have hsplitSch : splitScheme (sch ++ ':' :: '/' :: '/' :: (n ++ (p ++ qtail))) =
      (sch, '/' :: '/' :: (n ++ (p ++ qtail))) := by
    unfold splitScheme
    have ht : (sch ++ ':' :: '/' :: '/' :: (n ++ (p ++ qtail))).takeWhile
        (fun c => decide (c ≠ ':')) = sch := by
      rw [takeWhile_append_of_all _ _ _ hallsch, List.takeWhile_cons,
        if_neg (by simp), List.append_nil]
    have hd : (sch ++ ':' :: '/' :: '/' :: (n ++ (p ++ qtail))).dropWhile
        (fun c => decide (c ≠ ':')) = ':' :: ('/' :: '/' :: (n ++ (p ++ qtail))) := by
      rw [dropWhile_append_of_all _ _ _ hallsch, List.dropWhile_cons,
        if_neg (by simp)]
    rw [ht, hd, hsch]
    dsimp only
    split
    · rename_i rest c cs heq1 heq2
      injection heq1 with h1 h2
      injection heq2 with h3 h4
      subst h2
      subst h3
      subst h4
      rw [if_pos (by
        simp only [Bool.and_eq_true]
        refine ⟨halpha, ?_⟩
        rw [← hsch]
        exact hschars)]
      rw [← hsch, hslower]
    · rename_i hno
      exfalso
      exact hno ('/' :: '/' :: (n ++ (p ++ qtail))) c0 cs0 rfl rfl
  rw [hsplitSch]
  dsimp only
  rw [if_pos (show List.take 2 ('/' :: '/' :: (n ++ (p ++ qtail))) = ['/', '/']
    from rfl)]
  simp only [List.drop_succ_cons, List.drop_zero]
  have halln : ∀ c ∈ n, (!isNetlocEnd c) = true := by
    intro c hc
    rw [hnend c hc]
    rfl
  have ht2 : (n ++ (p ++ qtail)).takeWhile (fun c => !isNetlocEnd c) = n := by
    rw [takeWhile_append_of_all _ _ _ halln, hpp, List.cons_append,
      List.takeWhile_cons, if_neg (by simp [isNetlocEnd]), List.append_nil]
  have hd2 : (n ++ (p ++ qtail)).dropWhile (fun c => !isNetlocEnd c) =
      p ++ qtail := by
    rw [dropWhile_append_of_all _ _ _ halln, hpp, List.cons_append,
      List.dropWhile_cons, if_neg (by simp [isNetlocEnd])]
  rw [ht2, hd2]
  rw [if_neg (by rw [hnbr]; simp)]
  have hall4 : ∀ c ∈ p ++ qtail, (decide (c ≠ '#')) = true := by
    intro c hc
    simp only [ne_eq, decide_not, Bool.not_eq_eq_eq_not, Bool.not_true,
      decide_eq_false_iff_not]
    rintro rfl
    rcases List.mem_append.mp hc with hc | hc
    · exact hphash hc
    · rcases hqtail_chars _ hc with he | hc
      · exact absurd he (by decide)
      · exact absurd (by decide : ('#' : Char).toNat = 35) (hqchars _ hc)
  have hsf : splitFragment (p ++ qtail) = (p ++ qtail, []) := by
    unfold splitFragment
    rw [List.takeWhile_eq_self_iff.mpr hall4, List.dropWhile_eq_nil_iff.mpr hall4]
  rw [hsf]
  dsimp only
  have hallp : ∀ c ∈ p, (decide (c ≠ '?')) = true := by
    intro c hc
    simp only [ne_eq, decide_not, Bool.not_eq_eq_eq_not, Bool.not_true,
      decide_eq_false_iff_not]
    rintro rfl
    exact hpqm hc
  have hsq : splitQuery (p ++ qtail) = (p, q) := by
    unfold splitQuery
    by_cases hqe : q = []
    · have hqtnil : qtail = [] := by rw [hqt, if_pos hqe]
      rw [hqtnil, List.append_nil, List.takeWhile_eq_self_iff.mpr hallp,
        List.dropWhile_eq_nil_iff.mpr hallp, hqe]
    · have hqtc : qtail = '?' :: q := by rw [hqt, if_neg hqe]
      rw [hqtc, takeWhile_append_of_all _ _ _ hallp,
        dropWhile_append_of_all _ _ _ hallp, List.takeWhile_cons,
        List.dropWhile_cons, if_neg (by simp), if_neg (by simp), List.append_nil]
      rfl
  rw [hsq]

theorem canonList_of_canonical (sch n p q : List Char)
    (hs : ∃ c cs, sch = c :: cs ∧ isAsciiAlpha c = true)
    (hschars : sch.all isSchemeChar = true)
    (hscolon : ':' ∉ sch)
    (hslower : pyLower sch = sch)
    (hn : n ≠ [])
    (hnend : ∀ c ∈ n, isNetlocEnd c = false)
    (hnbr : n.contains '[' = n.contains ']')
    (hp : p.head? = some '/')
    (hphash : '#' ∉ p) (hpqm : '?' ∉ p)
    (hqchars : ∀ c ∈ q, c.toNat ≠ 35)
    (hws : NoWs (pyUrlunsplit sch n p q))
    (hnlow : pyLower n = n)
    (hnww : "www.".data.isPrefixOf n = false)
    (hpnorm : normPath p = p)
    (hqenc : encodeQuery q = q) :
    canonList (pyUrlunsplit sch n p q) = pyUrlunsplit sch n p q := by
  obtain ⟨c0, cs0, hsch, halpha⟩ := hs
  have hsne : sch ≠ [] := by rw [hsch]; simp
  have hsplit := pyUrlsplit_canonical sch n p q ⟨c0, cs0, hsch, halpha⟩ hschars
    hscolon hslower hn hnend hnbr hp hphash hpqm hqchars hws
  have ho_ne : pyUrlunsplit sch n p q ≠ [] := by
    rw [pyUrlunsplit_canonical_shape sch n p q hsne hn hp, hsch]
    simp
  unfold canonList
  dsimp only
  rw [pyStrip_eq_self_of_noWs hws, if_neg ho_ne, hsplit]
  dsimp only
  rw [if_neg (by
    rintro (h | h)
    · exact hsne h
    · exact hn h)]
  rw [hslower, hnlow, show wwwStrip n = n by unfold wwwStrip; rw [hnww]; rfl,
    hpnorm, hqenc]

theorem isNetlocEnd_cases {d : Char} (h : isNetlocEnd d = true) :
    d = '/' ∨ d = '?' ∨ d = '#' := by
  unfold isNetlocEnd at h
  simp only [Bool.or_eq_true, decide_eq_true_eq] at h
  tauto

theorem splitScheme_inv (u : List Char) :
    (splitScheme u = ([], u)) ∨
    (∃ pre rest, pre ≠ [] ∧
      u.takeWhile (fun c => decide (c ≠ ':')) = pre ∧
      u.dropWhile (fun c => decide (c ≠ ':')) = ':' :: rest ∧
      splitScheme u = (pyLower pre, rest) ∧
      (∃ c cs, pre = c :: cs ∧ isAsciiAlpha c = true) ∧
      pre.all isSchemeChar = true) := by
  unfold splitScheme
  rcases hd : u.dropWhile (fun c => decide (c ≠ ':')) with - | ⟨d, rest⟩
  · left
    rcases hpre : u.takeWhile (fun c => decide (c ≠ ':')) with - | ⟨c, cs⟩ <;> rfl
  · have hdc : d = ':' := by
      have := head_dropWhile_false _ _ hd
      simpa using this
    subst hdc
    rcases hpre : u.takeWhile (fun c => decide (c ≠ ':')) with - | ⟨c, cs⟩
    · left; rfl
    · dsimp only
      by_cases hcond : (isAsciiAlpha c && (c :: cs).all isSchemeChar) = true
      · right
        refine ⟨c :: cs, rest, by simp, rfl, rfl, ?_, ⟨c, cs, rfl, ?_⟩, ?_⟩
        · split
          · rename_i rest1 c1 cs1 heq1 heq2
            injection heq1 with h1 h2
            injection heq2 with h3 h4
            subst h2
            subst h3
            subst h4
            rw [if_pos hcond]
          · rename_i hno
            exact (hno rest c cs rfl rfl).elim
        · exact (Bool.and_eq_true .. ▸ hcond).1
        · exact (Bool.and_eq_true .. ▸ hcond).2
      · left
        split
        · rename_i rest1 c1 cs1 heq1 heq2
          injection heq1 with h1 h2
          injection heq2 with h3 h4
          subst h2
          subst h3
          subst h4
          rw [if_neg hcond]
        · rename_i hno
          exact (hno rest c cs rfl rfl).elim

theorem pyUrlsplit_inv {l : List Char} {parts : SplitResult}
    (h : pyUrlsplit l = some parts) :
    (parts.scheme ≠ [] → ∃ pre, parts.scheme = pyLower pre ∧
      (∃ c cs, pre = c :: cs ∧ isAsciiAlpha c = true) ∧
      pre.all isSchemeChar = true ∧ ':' ∉ pre ∧ (∀ c ∈ pre, c ∈ l)) ∧
    (∀ c ∈ parts.netloc, isNetlocEnd c = false) ∧
    (parts.netloc.contains '[' = parts.netloc.contains ']') ∧
    (parts.netloc ≠ [] → (parts.path = [] ∨ parts.path.head? = some '/')) ∧
    ('#' ∉ parts.path) ∧ ('?' ∉ parts.path) ∧
    (∀ c ∈ parts.netloc, c ∈ l) ∧ (∀ c ∈ parts.path, c ∈ l) := by
  unfold pyUrlsplit splitFragment splitQuery at h
  set u1 := l.filter (fun c => !(c = '\t' || c = '\r' || c = '\n')) with hu1
  have hmemu1 : ∀ c ∈ u1, c ∈ l := fun c hc => List.mem_of_mem_filter hc
  obtain ⟨sch, u2, hss, hschfact, hmemu2⟩ : ∃ sch u2,
      splitScheme u1 = (sch, u2) ∧
      (sch ≠ [] → ∃ pre, sch = pyLower pre ∧
        (∃ c cs, pre = c :: cs ∧ isAsciiAlpha c = true) ∧
        pre.all isSchemeChar = true ∧ ':' ∉ pre ∧ (∀ c ∈ pre, c ∈ l)) ∧
      (∀ c ∈ u2, c ∈ l) := by
    rcases splitScheme_inv u1 with hss | ⟨pre, rest, hprene, hpre, hdrop, hss, hpc, hpall⟩
    · exact ⟨[], u1, hss, fun hne => absurd rfl hne, hmemu1⟩
    · refine ⟨pyLower pre, rest, hss, fun hne => ⟨pre, rfl, hpc, hpall, ?_, ?_⟩, ?_⟩
      · intro hc
        rw [← hpre] at hc
        have := List.mem_takeWhile_imp hc
        simp at this
      · intro c hc
        rw [← hpre] at hc
        exact hmemu1 c ((List.takeWhile_sublist _).subset hc)
      · intro c hc
        refine hmemu1 c ?_
        have hm : c ∈ ':' :: rest := List.mem_cons_of_mem _ hc
        rw [← hdrop] at hm
        exact (List.dropWhile_sublist _).subset hm
  dsimp only at h
  rw [hss] at h
  dsimp only at h
  by_cases h22 : List.take 2 u2 = ['/', '/']
  · rw [if_pos h22] at h
    by_cases hbr : (((List.drop 2 u2).takeWhile (fun c => !isNetlocEnd c)).contains '[' !=
        ((List.drop 2 u2).takeWhile (fun c => !isNetlocEnd c)).contains ']') = true
    · rw [if_pos hbr] at h
      exact absurd h (by simp)
    · rw [if_neg hbr] at h
      obtain rfl := (Option.some.inj h).symm
      dsimp only
      refine ⟨hschfact, ?_, ?_, ?_, ?_, ?_, ?_, ?_⟩
      · intro c hc
        have := List.mem_takeWhile_imp hc
        simpa using this
      · simpa using hbr
      · intro hnne
        rcases hd3 : (List.drop 2 u2).dropWhile (fun c => !isNetlocEnd c) with - | ⟨d, t⟩
        · left
          rfl
        · have hdend : isNetlocEnd d = true := by
            have := head_dropWhile_false _ _ hd3
            simpa using this
          rcases isNetlocEnd_cases hdend with rfl | rfl | rfl
          · right
            rw [List.takeWhile_cons, if_pos (by decide), List.takeWhile_cons,
              if_pos (by decide)]
            rfl
          · left
            rw [List.takeWhile_cons, if_pos (by decide), List.takeWhile_cons,
              if_neg (by decide)]
          · left
            rw [List.takeWhile_cons, if_neg (by decide)]
            rfl
      · intro hmem
        have h1 := (List.takeWhile_sublist _).subset hmem
        have := List.mem_takeWhile_imp h1
        simp at this
      · intro hmem
        have := List.mem_takeWhile_imp hmem
        simp at this
      · intro c hc
        exact hmemu2 c ((List.drop_subset _ _) ((List.takeWhile_sublist _).subset hc))
      · intro c hc
        have h1 := (List.takeWhile_sublist _).subset hc
        have h2 := (List.takeWhile_sublist _).subset h1
        have h3 := (List.dropWhile_sublist _).subset h2
        exact hmemu2 c ((List.drop_subset _ _) h3)
  · rw [if_neg h22] at h
    obtain rfl := (Option.some.inj h).symm
    dsimp only
    refine ⟨hschfact, by simp, rfl, fun hnne => absurd rfl hnne, ?_, ?_, by simp, ?_⟩
    · intro hmem
      have h1 := (List.takeWhile_sublist _).subset hmem
      have := List.mem_takeWhile_imp h1
      simp at this
    · intro hmem
      have := List.mem_takeWhile_imp hmem
      simp at this
    · intro c hc
      have h1 := (List.takeWhile_sublist _).subset hc
      have h2 := (List.takeWhile_sublist _).subset h1
      exact hmemu2 c h2

theorem canonList_idem_core {l : List Char} (hws : NoWs l)
    (hhost : ∀ parts, pyUrlsplit l = some parts → parts.scheme ≠ [] →
      parts.netloc ≠ [] →
      wwwStrip (pyLower parts.netloc) ≠ [] ∧
      "www.".data.isPrefixOf (wwwStrip (pyLower parts.netloc)) = false) :
    canonList (canonList l) = canonList l := by
  have hstr : pyStrip l = l := pyStrip_eq_self_of_noWs hws
  by_cases hnil : l = []
  · subst hnil
    rfl
  rcases hparse : pyUrlsplit l with - | parts
  · have hcl : canonList l = pyLower l := by
      unfold canonList
      dsimp only
      rw [hstr, if_neg hnil, hparse]
    rw [hcl]
    exact canonList_of_fallback l hnil hstr (Or.inl hparse)
  by_cases hsn : parts.scheme = [] ∨ parts.netloc = []
  · have hcl : canonList l = pyLower l := by
      unfold canonList
      dsimp only
      rw [hstr, if_neg hnil, hparse]
      dsimp only
      rw [if_pos hsn]
    rw [hcl]
    exact canonList_of_fallback l hnil hstr (Or.inr ⟨parts, hparse, hsn⟩)
  push_neg at hsn
  obtain ⟨hs0, hn0⟩ := hsn
  obtain ⟨hn1, hn2⟩ := hhost parts hparse hs0 hn0
  obtain ⟨hschemef, hnend, hnbr, hpathhead, hphash, hpqm, hnmem, hpmem⟩ :=
    pyUrlsplit_inv hparse
  obtain ⟨pre, hpre_eq, ⟨c0, cs0, hprec, halpha⟩, hpall, hpcolon, hpremem⟩ :=
    hschemef hs0
  have hcl : canonList l = pyUrlunsplit (pyLower parts.scheme)
      (wwwStrip (pyLower parts.netloc)) (normPath parts.path)
      (encodeQuery parts.query) := by
    unfold canonList
    dsimp only
    rw [hstr, if_neg hnil, hparse]
    dsimp only
    rw [if_neg (by rintro (hx | hx); exacts [hs0 hx, hn0 hx])]
  rw [hcl]
  have hslow : pyLower parts.scheme = pyLower pre := by
    rw [hpre_eq, pyLower_idem]
  have hsstruct : ∃ c cs, pyLower parts.scheme = c :: cs ∧ isAsciiAlpha c = true := by
    refine ⟨lowerChar c0, pyLower cs0, ?_, ?_⟩
    · rw [hslow, hprec]
      rfl
    · rw [isAsciiAlpha_lowerChar]
      exact halpha
  have hsprop2 : (pyLower parts.scheme).all isSchemeChar = true := by
    rw [hslow, all_pyLower _ isSchemeChar_lowerChar]
    exact hpall
  have hsprop3 : ':' ∉ pyLower parts.scheme := by
    rw [hslow]
    exact not_mem_pyLower_of_notLetter (by decide) (by decide) hpcolon
  have hsprop4 : pyLower (pyLower parts.scheme) = pyLower parts.scheme :=
    pyLower_idem _
  have hnprop1 : ∀ c ∈ wwwStrip (pyLower parts.netloc), isNetlocEnd c = false := by
    intro c hc
    have hc2 := mem_wwwStrip hc
    unfold pyLower at hc2
    rw [List.mem_map] at hc2
    obtain ⟨d, hd, rfl⟩ := hc2
    rw [isNetlocEnd_lowerChar]
    exact hnend d hd
  have hnprop2 : (wwwStrip (pyLower parts.netloc)).contains '[' =
      (wwwStrip (pyLower parts.netloc)).contains ']' := by
    rw [wwwStrip_contains (by refine ⟨?_, ?_⟩ <;> decide),
      wwwStrip_contains (by refine ⟨?_, ?_⟩ <;> decide),
      contains_pyLower '[' (by decide) (by decide),
      contains_pyLower ']' (by decide) (by decide), hnbr]
  have hpprop1 : (normPath parts.path).head? = some '/' :=
    head?_normPath (hpathhead hn0)
  have hpprop2 : '#' ∉ normPath parts.path := by
    intro hm
    rcases mem_normPath hm with hm | hm
    · exact hphash hm
    · exact absurd hm (by decide)
  have hpprop3 : '?' ∉ normPath parts.path := by
    intro hm
    rcases mem_normPath hm with hm | hm
    · exact hpqm hm
    · exact absurd hm (by decide)
  have hqprop : ∀ c ∈ encodeQuery parts.query, c.toNat ≠ 35 := by
    intro c hc
    unfold encodeQuery at hc
    have := mem_urlencodePairs_toNat hc
    omega
  have hwss : NoWs (pyLower parts.scheme) := by
    rw [hslow]
    exact NoWs_pyLower (NoWs_mono hpremem hws)
  have hwsn : NoWs (wwwStrip (pyLower parts.netloc)) :=
    NoWs_mono (fun c hc => mem_wwwStrip hc)
      (NoWs_pyLower (NoWs_mono hnmem hws))
  have hwsp : NoWs (normPath parts.path) := by
    intro c hc
    rcases mem_normPath hc with hm | rfl
    · exact hws c (hpmem c hm)
    · decide
  have hwsq : NoWs (encodeQuery parts.query) := by
    unfold encodeQuery
    exact NoWs_urlencodePairs _
  have hsne2 : pyLower parts.scheme ≠ [] := by
    obtain ⟨c, cs, hcc, -⟩ := hsstruct
    rw [hcc]
    simp
  have hws_o : NoWs (pyUrlunsplit (pyLower parts.scheme)
      (wwwStrip (pyLower parts.netloc)) (normPath parts.path)
      (encodeQuery parts.query)) := by
    rw [pyUrlunsplit_canonical_shape _ _ _ _ hsne2 hn1 hpprop1]
    refine NoWs_append hwss (NoWs_cons (by decide) (NoWs_cons (by decide)
      (NoWs_cons (by decide) (NoWs_append hwsn (NoWs_append hwsp ?_)))))
    split_ifs
    · intro c hc
      simp at hc
    · exact NoWs_cons (by decide) hwsq
  exact canonList_of_canonical _ _ _ _ hsstruct hsprop2 hsprop3 hsprop4 hn1
    hnprop1 hnprop2 hpprop1 hpprop2 hpprop3 hqprop hws_o
    (pyLower_wwwStrip_pyLower _) hn2 (normPath_idem _) (encodeQuery_idem _)

/-- C3 (amended): `canonicalize_url` is idempotent on every URL string that
contains no whitespace character and whose parsed netloc stays stable under
one `www.`-strip-and-lowercase step (`hostStable`); the unrestricted claim is
refuted by `canonicalize_url_not_idempotent`. -/
theorem canonicalize_url_idempotent_amended (u : String) (hws : NoWs u.data)
    (hhost : hostStable u = true) :
    canonicalize_url (canonicalize_url u) = canonicalize_url u := by
  unfold canonicalize_url
  show (⟨canonList (canonList u.data)⟩ : String) = ⟨canonList u.data⟩
  congr 1
  apply canonList_idem_core hws
  intro parts hparse hs hn
  unfold hostStable at hhost
  rw [pyStrip_eq_self_of_noWs hws, hparse] at hhost
  dsimp only at hhost
  simp only [Bool.or_eq_true, Bool.and_eq_true, decide_eq_true_eq,
    Bool.not_eq_true', decide_eq_false_iff_not] at hhost
  rcases hhost with (hx | hx) | ⟨h1, h2⟩
  · exact absurd hx hs
  · exact absurd hx hn
  · exact ⟨h1, h2⟩

/-- C3 counterexample: `canonicalize_url` is not idempotent as claimed.  A
space kept before a trailing slash resurfaces at the end of the canonical URL
and is stripped on the second pass, and stacked `www.` prefixes are stripped
one per pass, so both URLs canonicalize differently the second time. -/
theorem canonicalize_url_not_idempotent :
    canonicalize_url (canonicalize_url "http://a/x /") ≠
      canonicalize_url "http://a/x /" ∧
    canonicalize_url (canonicalize_url "http://www.www.a/x") ≠
      canonicalize_url "http://www.www.a/x" := by
  decide

/-- Witness for C3 (amended) at a concrete mixed-case URL with duplicate
slashes, a tracking parameter and unsorted query keys. -/
theorem canonicalize_url_idempotent_amended_witness :
    NoWs ("https://Example.com/a//b/?b=2&utm_x=1&a=1").data ∧
    hostStable "https://Example.com/a//b/?b=2&utm_x=1&a=1" = true ∧
    canonicalize_url (canonicalize_url "https://Example.com/a//b/?b=2&utm_x=1&a=1") =
      canonicalize_url "https://Example.com/a//b/?b=2&utm_x=1&a=1" :=
  ⟨by decide, by decide, canonicalize_url_idempotent_amended _ (by decide) (by decide)⟩

/-- C4: two URLs that differ only cosmetically canonicalize to the same key.
The cosmetic differences of the claim are stated on the parsed components:
scheme/host letter case (`pyLower` of the schemes and the `www.`-stripped
lowercased netlocs agree), a leading `www.` prefix (absorbed by `wwwStrip`),
a trailing slash on the path, and tracking-parameter content plus ordering of
the remaining query parameters (the tracking-filtered parsed query lists are
permutations). -/
theorem canonical_equivalence (u1 u2 : String) (p1 p2 : SplitResult)
    (h1 : pyUrlsplit (pyStrip u1.data) = some p1)
    (h2 : pyUrlsplit (pyStrip u2.data) = some p2)
    (hs1 : p1.scheme ≠ []) (hn1 : p1.netloc ≠ [])
    (hs2 : p2.scheme ≠ []) (hn2 : p2.netloc ≠ [])
    (hsch : pyLower p1.scheme = pyLower p2.scheme)
    (hhost : wwwStrip (pyLower p1.netloc) = wwwStrip (pyLower p2.netloc))
    (hpath : p1.path = p2.path ∨ p1.path = p2.path ++ ['/'] ∨
      p2.path = p1.path ++ ['/'])
    (hq : (filterTracking (parseQsl p1.query)).Perm
      (filterTracking (parseQsl p2.query))) :
    canonicalize_url u1 = canonicalize_url u2 := by
  have hempty : pyUrlsplit ([] : List Char) = some ⟨[], [], [], [], []⟩ := by decide
  have hraw1 : pyStrip u1.data ≠ [] := by
    intro he
    rw [he, hempty] at h1
    obtain rfl := Option.some.inj h1
    exact hs1 rfl
  have hraw2 : pyStrip u2.data ≠ [] := by
    intro he
    rw [he, hempty] at h2
    obtain rfl := Option.some.inj h2
    exact hs2 rfl
  unfold canonicalize_url
  show (⟨canonList u1.data⟩ : String) = ⟨canonList u2.data⟩
  congr 1
  unfold canonList
  dsimp only
  rw [if_neg hraw1, if_neg hraw2, h1, h2]
  dsimp only
  rw [if_neg (by rintro (hx | hx); exacts [hs1 hx, hn1 hx]),
    if_neg (by rintro (hx | hx); exacts [hs2 hx, hn2 hx])]
  have hnp : normPath p1.path = normPath p2.path := by
    rcases hpath with he | he | he
    · rw [he]
    · rw [he, normPath_append_slash]
    · rw [he, normPath_append_slash]
  rw [hsch, hhost, hnp, encodeQuery_eq_of_perm hq]

/-- Witness for C4: the concrete pair from the specification. -/
theorem canonical_equivalence_witness :
    canonicalize_url "https://www.Example.com/r/?utm_source=x&fbclid=1&id=5" =
      canonicalize_url "https://example.com/r?id=5" :=
  canonical_equivalence _ _
    ⟨"https".data, "www.Example.com".data, "/r/".data,
      "utm_source=x&fbclid=1&id=5".data, []⟩
    ⟨"https".data, "example.com".data, "/r".data, "id=5".data, []⟩
    (by decide) (by decide) (by decide) (by decide) (by decide) (by decide)
    (by decide) (by decide) (by decide) (by decide)

end Dredger
